import Mathlib

/-!
Shallow embedding of the storage and transaction core of a BusTub-style
educational DBMS: the LRU-K replacer, the buffer pool manager, the extendible
hash table, the deadlock detector of the lock manager, and the B+ tree page
operations.  Every definition is translated from the corresponding C++
source function; machine maps (`std::map`, `std::unordered_map`) are modelled
as association lists, out-parameters as returned values, and
`BUSTUB_ASSERT` failures as `Option.none` results.
-/

namespace BusTub

/-! ### Association-list helpers (the shape of `std::map` / bucket lists) -/

/-- Lookup of the first entry with the given key. -/
def lookupA {β : Type} (key : Nat) : List (Nat × β) → Option β
  | [] => none
  | (g, w) :: rest => if g = key then some w else lookupA key rest

/-- Erase the first entry with the given key. -/
def eraseA {β : Type} (key : Nat) : List (Nat × β) → List (Nat × β)
  | [] => []
  | (g, w) :: rest => if g = key then rest else (g, w) :: eraseA key rest

/-- Replace the value of the first entry with the given key (no-op if absent). -/
def setA {β : Type} (key : Nat) (v : β) : List (Nat × β) → List (Nat × β)
  | [] => []
  | (g, w) :: rest => if g = key then (g, v) :: rest else (g, w) :: setA key v rest

/-- Ordered-map insertion-or-assignment, the effect of `m[key] = v` on a
`std::map` kept sorted by key. -/
def mapSet {β : Type} (key : Nat) (v : β) : List (Nat × β) → List (Nat × β)
  | [] => [(key, v)]
  | (g, w) :: rest =>
    if key < g then (key, v) :: (g, w) :: rest
    else if key = g then (key, v) :: rest
    else (g, w) :: mapSet key v rest

/-- Update the value of the first entry with the given key by a function. -/
def updA {β : Type} (key : Nat) (f : β → β) : List (Nat × β) → List (Nat × β)
  | [] => []
  | (g, w) :: rest => if g = key then (g, f w) :: rest else (g, w) :: updA key f rest

/-!
### LRU-K replacer

Translated from `src/buffer/lru_k_replacer.cpp` (the `FrameInfo` / `cache_`
implementation).  `cache_` is a `std::map<frame_id_t, FrameInfo>` iterated in
ascending key order; timestamps are the values of `current_timestamp_`.
-/

/-- Per-frame bookkeeping of `FrameInfo`: the bounded history of access
timestamps, oldest first (the head of the list is the deque front), and the
evictable flag.  `FrameInfo(k, frame_id)` starts with an empty history and a
default-initialized (false) evictable flag. -/
structure FrameInfo where
  accesses : List Nat
  is_evictable : Bool
deriving Repr, DecidableEq

/-- Translation of `FrameInfo::HasK`: `accesses_.size() == k_`. -/
def FrameInfo.hasK (k : Nat) (fi : FrameInfo) : Bool := fi.accesses.length = k

/-- Translation of `FrameInfo::GetFront`: `accesses_.front()`.  The source
reads the front of a nonempty deque; every tracked frame has a nonempty
history once `k ≥ 1`, so the default value is never used there. -/
def FrameInfo.front (fi : FrameInfo) : Nat := fi.accesses.headD 0

/-- State of `LRUKReplacer`: capacity `replacer_size_`, parameter `k_`,
the ordered map `cache_`, the evictable count `curr_size_` and the logical
clock `current_timestamp_`. -/
structure LRUKReplacer where
  replacer_size : Nat
  k : Nat
  cache : List (Nat × FrameInfo)
  curr_size : Nat
  current_timestamp : Nat
deriving Repr, DecidableEq

/-- Translation of the constructor `LRUKReplacer(num_frames, k)`. -/
def LRUKReplacer.init (num_frames k : Nat) : LRUKReplacer :=
  ⟨num_frames, k, [], 0, 0⟩

/-- Body of the history update in `RecordAccess`: `PushBack(current_timestamp_)`
followed by `PopFront()` when the history now exceeds `k_`. -/
def pushTs (k ts : Nat) (fi : FrameInfo) : FrameInfo :=
  if k < (fi.accesses ++ [ts]).length then { fi with accesses := (fi.accesses ++ [ts]).tail }
  else { fi with accesses := fi.accesses ++ [ts] }

/-- First phase of `RecordAccess`: `cache_[frame_id] = FrameInfo(k_, frame_id)`
when the frame is untracked. -/
def ensureFrame (frame_id : Nat) (cache : List (Nat × FrameInfo)) :
    List (Nat × FrameInfo) :=
  match lookupA frame_id cache with
  | none => mapSet frame_id ⟨[], false⟩ cache
  | some _ => cache

/-- Translation of `LRUKReplacer::RecordAccess`.  The leading
`BUSTUB_ASSERT(size_t(frame_id) <= replacer_size_, ...)` aborts, modelled as
`none`, exactly when `frame_id > replacer_size_`. -/
def LRUKReplacer.recordAccess (r : LRUKReplacer) (frame_id : Nat) :
    Option LRUKReplacer :=
  if r.replacer_size < frame_id then none
  else
    some { r with
      cache := updA frame_id (pushTs r.k r.current_timestamp) (ensureFrame frame_id r.cache),
      current_timestamp := r.current_timestamp + 1 }

/-- Translation of `LRUKReplacer::SetEvictable`; the same assertion guards the
frame id, and an untracked frame is a silent no-op. -/
def LRUKReplacer.setEvictable (r : LRUKReplacer) (frame_id : Nat)
    (set_evictable : Bool) : Option LRUKReplacer :=
  if r.replacer_size < frame_id then none
  else
    match lookupA frame_id r.cache with
    | none => some r
    | some fi =>
      let size1 :=
        if !fi.is_evictable && set_evictable then r.curr_size + 1
        else if fi.is_evictable && !set_evictable then r.curr_size - 1
        else r.curr_size
      some { r with
        curr_size := size1,
        cache := updA frame_id (fun fj => { fj with is_evictable := set_evictable }) r.cache }

/-- One step of the scan loop inside `LRUKReplacer::Evict`: the pair of
best-so-far iterators `(k_it_evict, none_k_it_evict)` is refined by the next
map entry; a candidate replaces the best only when its front timestamp is
strictly smaller. -/
def evictScanStep (k : Nat)
    (acc : Option (Nat × FrameInfo) × Option (Nat × FrameInfo))
    (e : Nat × FrameInfo) :
    Option (Nat × FrameInfo) × Option (Nat × FrameInfo) :=
  if !e.2.is_evictable then acc
  else if e.2.hasK k then
    match acc.1 with
    | none => (some e, acc.2)
    | some b => if e.2.front < b.2.front then (some e, acc.2) else acc
  else
    match acc.2 with
    | none => (acc.1, some e)
    | some b => if e.2.front < b.2.front then (acc.1, some e) else acc

/-- Translation of `LRUKReplacer::Evict`: scan the map for the best
fewer-than-K and K-history evictable frames, preferring the former; on
success erase the victim and decrement `curr_size_`. -/
def LRUKReplacer.evict (r : LRUKReplacer) : Option Nat × LRUKReplacer :=
  if r.curr_size = 0 then (none, r)
  else
    let best := r.cache.foldl (evictScanStep r.k) (none, none)
    match best.2 with
    | some e =>
      (some e.1, { r with cache := eraseA e.1 r.cache, curr_size := r.curr_size - 1 })
    | none =>
      match best.1 with
      | some e =>
        (some e.1, { r with cache := eraseA e.1 r.cache, curr_size := r.curr_size - 1 })
      | none => (none, r)

/-- Translation of `LRUKReplacer::Remove`: untracked frames are a silent
no-op; a tracked non-evictable frame trips the assertion (`none`). -/
def LRUKReplacer.removeFrame (r : LRUKReplacer) (frame_id : Nat) :
    Option LRUKReplacer :=
  match lookupA frame_id r.cache with
  | none => some r
  | some fi =>
    if !fi.is_evictable then none
    else some { r with cache := eraseA frame_id r.cache, curr_size := r.curr_size - 1 }

/-- Replacer call in a `RecordAccess` / `SetEvictable` sequence. -/
inductive ROp where
  | record (frame_id : Nat)
  | setEvictable (frame_id : Nat) (b : Bool)
deriving Repr, DecidableEq

/-- Apply one replacer call. -/
def rstep (r : LRUKReplacer) : ROp → Option LRUKReplacer
  | ROp.record fid => r.recordAccess fid
  | ROp.setEvictable fid b => r.setEvictable fid b

/-- Run a sequence of calls from a given state; `none` when an assertion
fires along the way. -/
def runFrom (r : LRUKReplacer) : List ROp → Option LRUKReplacer
  | [] => some r
  | op :: ops =>
    match rstep r op with
    | none => none
    | some r1 => runFrom r1 ops

/-- Run a sequence of calls on a freshly constructed replacer. -/
def runROps (num_frames k : Nat) (ops : List ROp) : Option LRUKReplacer :=
  runFrom (LRUKReplacer.init num_frames k) ops

/-! ### Association-list lemmas -/

theorem lookupA_mem_keys {β : Type} {key : Nat} {w : β} {l : List (Nat × β)}
    (h : lookupA key l = some w) : key ∈ l.map Prod.fst := by
  induction l with
  | nil => simp [lookupA] at h
  | cons e rest ih =>
    simp only [lookupA] at h
    by_cases h1 : e.1 = key
    · simp [← h1]
    · rw [if_neg h1] at h
      exact List.mem_cons_of_mem _ (ih h)

theorem lookupA_eraseA_ne {β : Type} (key g : Nat) (l : List (Nat × β)) (h : g ≠ key) :
    lookupA g (eraseA key l) = lookupA g l := by
  induction l with
  | nil => rfl
  | cons e rest ih =>
    simp only [eraseA]
    by_cases h1 : e.1 = key
    · rw [if_pos h1]
      show lookupA g rest = lookupA g (e :: rest)
      rw [lookupA, if_neg (fun hh : e.1 = g => h (hh.symm.trans h1))]
    · rw [if_neg h1]
      show lookupA g (e :: eraseA key rest) = lookupA g (e :: rest)
      rw [lookupA, lookupA, ih]

theorem eraseA_sublist {β : Type} (key : Nat) (l : List (Nat × β)) :
    (eraseA key l).Sublist l := by
  induction l with
  | nil => simp [eraseA]
  | cons e rest ih =>
    simp only [eraseA]
    by_cases h1 : e.1 = key
    · simp [h1]
    · simpa [h1] using ih.cons₂ e

theorem lookupA_eraseA_self {β : Type} (key : Nat) (l : List (Nat × β))
    (hnd : (l.map Prod.fst).Nodup) : lookupA key (eraseA key l) = none := by
  induction l with
  | nil => rfl
  | cons e rest ih =>
    simp only [List.map_cons, List.nodup_cons] at hnd
    simp only [eraseA]
    by_cases h1 : e.1 = key
    · rw [if_pos h1]
      cases hl : lookupA key rest with
      | none => rfl
      | some w => exact absurd (h1 ▸ lookupA_mem_keys hl) hnd.1
    · rw [if_neg h1]
      show lookupA key (e :: eraseA key rest) = none
      rw [lookupA, if_neg h1]
      exact ih hnd.2

theorem mem_mapSet {β : Type} (key : Nat) (v : β) (l : List (Nat × β)) (e : Nat × β)
    (h : e ∈ mapSet key v l) : e = (key, v) ∨ e ∈ l := by
  induction l with
  | nil => simpa [mapSet] using h
  | cons g rest ih =>
    simp only [mapSet] at h
    split at h
    · rcases List.mem_cons.1 h with h2 | h2
      · exact Or.inl h2
      · exact Or.inr h2
    · split at h
      · rcases List.mem_cons.1 h with h2 | h2
        · exact Or.inl h2
        · exact Or.inr (List.mem_cons_of_mem _ h2)
      · rcases List.mem_cons.1 h with h2 | h2
        · exact Or.inr (h2 ▸ List.mem_cons_self _ _)
        · rcases ih h2 with h3 | h3
          · exact Or.inl h3
          · exact Or.inr (List.mem_cons_of_mem _ h3)

theorem mem_updA {β : Type} (key : Nat) (f : β → β) (l : List (Nat × β)) (e : Nat × β)
    (h : e ∈ updA key f l) : e ∈ l ∨ ∃ w, (key, w) ∈ l ∧ e = (key, f w) := by
  induction l with
  | nil => simp [updA] at h
  | cons g rest ih =>
    simp only [updA] at h
    split at h
    · rename_i h1
      rcases List.mem_cons.1 h with h2 | h2
      · refine Or.inr ⟨g.2, ?_, ?_⟩
        · rw [← h1]
          exact List.mem_cons_self _ _
        · rw [h2, h1]
      · exact Or.inl (List.mem_cons_of_mem _ h2)
    · rcases List.mem_cons.1 h with h2 | h2
      · exact Or.inl (h2 ▸ List.mem_cons_self _ _)
      · rcases ih h2 with h3 | ⟨w, hw, he⟩
        · exact Or.inl (List.mem_cons_of_mem _ h3)
        · exact Or.inr ⟨w, List.mem_cons_of_mem _ hw, he⟩

theorem updA_map_fst {β : Type} (key : Nat) (f : β → β) (l : List (Nat × β)) :
    (updA key f l).map Prod.fst = l.map Prod.fst := by
  induction l with
  | nil => rfl
  | cons g rest ih =>
    simp only [updA]
    by_cases h1 : g.1 = key
    · simp [h1]
    · simp [h1, ih]

theorem mapSet_map_fst_sorted {β : Type} (key : Nat) (v : β) (l : List (Nat × β))
    (h : (l.map Prod.fst).Pairwise (· < ·)) :
    ((mapSet key v l).map Prod.fst).Pairwise (· < ·) := by
  induction l with
  | nil => simp [mapSet]
  | cons g rest ih =>
    simp only [List.map_cons, List.pairwise_cons] at h
    obtain ⟨hg, hrest⟩ := h
    simp only [mapSet]
    split
    · rename_i h1
      simp only [List.map_cons, List.pairwise_cons]
      refine ⟨?_, hg, hrest⟩
      intro b hb
      rcases List.mem_cons.1 hb with hb | hb
      · exact hb ▸ h1
      · exact lt_trans h1 (hg b hb)
    · split
      · rename_i h1 h2
        simp only [List.map_cons, List.pairwise_cons]
        exact ⟨fun b hb => h2 ▸ hg b hb, hrest⟩
      · rename_i h1 h2
        have h3 : g.1 < key := by omega
        simp only [List.map_cons, List.pairwise_cons]
        refine ⟨?_, ih hrest⟩
        intro b hb
        rcases List.mem_map.1 hb with ⟨e, he, hbe⟩
        rcases mem_mapSet key v rest e he with he2 | he2
        · have hek : e.1 = key := by rw [he2]
          omega
        · exact hbe ▸ hg _ (List.mem_map_of_mem _ he2)

theorem lookupA_isSome_of_mem {β : Type} (key : Nat) (w : β) (l : List (Nat × β))
    (h : (key, w) ∈ l) : (lookupA key l).isSome := by
  induction l with
  | nil => simp at h
  | cons g rest ih =>
    simp only [lookupA]
    by_cases h1 : g.1 = key
    · simp [h1]
    · rcases List.mem_cons.1 h with h2 | h2
      · exact absurd (by simp [← h2]) h1
      · simpa [h1] using ih h2

/-! ### Characterization of the `Evict` scan loop -/

/-- Refine a best-so-far candidate: replace only on a strictly smaller front
timestamp (so the earliest minimal entry is kept). -/
def better (a : Option (Nat × FrameInfo)) (e : Nat × FrameInfo) :
    Option (Nat × FrameInfo) :=
  match a with
  | none => some e
  | some b => if e.2.front < b.2.front then some e else some b

theorem evictScanStep_eq (k : Nat) (acc : Option (Nat × FrameInfo) × Option (Nat × FrameInfo))
    (e : Nat × FrameInfo) :
    evictScanStep k acc e =
      (if e.2.is_evictable && e.2.hasK k then better acc.1 e else acc.1,
       if e.2.is_evictable && !e.2.hasK k then better acc.2 e else acc.2) := by
  rcases acc with ⟨a1, a2⟩
  by_cases h1 : e.2.is_evictable
  · by_cases h2 : e.2.hasK k
    · cases a1 with
      | none => simp [evictScanStep, h1, h2, better]
      | some b =>
        by_cases h3 : e.2.front < b.2.front <;>
          simp [evictScanStep, h1, h2, better, h3]
    · cases a2 with
      | none => simp [evictScanStep, h1, h2, better]
      | some b =>
        by_cases h3 : e.2.front < b.2.front <;>
          simp [evictScanStep, h1, h2, better, h3]
  · simp [evictScanStep, h1]

theorem scan_foldl_eq (k : Nat) (l : List (Nat × FrameInfo))
    (a1 a2 : Option (Nat × FrameInfo)) :
    l.foldl (evictScanStep k) (a1, a2) =
      ((l.filter (fun e => e.2.is_evictable && e.2.hasK k)).foldl better a1,
       (l.filter (fun e => e.2.is_evictable && !e.2.hasK k)).foldl better a2) := by
  induction l generalizing a1 a2 with
  | nil => rfl
  | cons e rest ih =>
    simp only [List.foldl_cons, evictScanStep_eq, List.filter_cons]
    by_cases h1 : e.2.is_evictable
    · by_cases h2 : e.2.hasK k
      · simpa [h1, h2] using ih (better a1 e) a2
      · simpa [h1, h2] using ih a1 (better a2 e)
    · simpa [h1] using ih a1 a2

theorem foldl_better_none (l : List (Nat × FrameInfo)) (a : Option (Nat × FrameInfo)) :
    l.foldl better a = none ↔ a = none ∧ l = [] := by
  induction l generalizing a with
  | nil => simp
  | cons e rest ih =>
    simp only [List.foldl_cons, ih]
    constructor
    · rintro ⟨h1, -⟩
      cases a with
      | none => simp [better] at h1
      | some b =>
        simp only [better] at h1
        split at h1 <;> simp at h1
    · rintro ⟨-, h⟩
      simp at h

theorem foldl_better_mem (l : List (Nat × FrameInfo)) (a : Option (Nat × FrameInfo))
    (b : Nat × FrameInfo) (h : l.foldl better a = some b) :
    a = some b ∨ b ∈ l := by
  induction l generalizing a with
  | nil => exact Or.inl h
  | cons e rest ih =>
    simp only [List.foldl_cons] at h
    rcases ih _ h with h1 | h1
    · cases a with
      | none =>
        simp only [better] at h1
        exact Or.inr (by simp [← Option.some_inj.1 h1])
      | some c =>
        simp only [better] at h1
        split at h1
        · exact Or.inr (by simp [← Option.some_inj.1 h1])
        · exact Or.inl h1
    · exact Or.inr (List.mem_cons_of_mem _ h1)

theorem better_front_le (a : Option (Nat × FrameInfo)) (e : Nat × FrameInfo)
    (b : Nat × FrameInfo) (h : better a e = some b) :
    b.2.front ≤ e.2.front ∧ ∀ x, a = some x → b.2.front ≤ x.2.front := by
  cases a with
  | none =>
    simp only [better] at h
    exact ⟨(Option.some_inj.1 h) ▸ le_refl _, by simp⟩
  | some c =>
    simp only [better] at h
    split at h
    · rename_i hlt
      refine ⟨(Option.some_inj.1 h) ▸ le_refl _, ?_⟩
      intro x hx
      cases Option.some_inj.1 hx
      exact (Option.some_inj.1 h) ▸ le_of_lt hlt
    · rename_i hlt
      push_neg at hlt
      refine ⟨(Option.some_inj.1 h) ▸ hlt, ?_⟩
      intro x hx
      cases Option.some_inj.1 hx
      exact (Option.some_inj.1 h) ▸ le_refl _

theorem foldl_better_min (l : List (Nat × FrameInfo)) (a : Option (Nat × FrameInfo))
    (b : Nat × FrameInfo) (h : l.foldl better a = some b) :
    (∀ e ∈ l, b.2.front ≤ e.2.front) ∧ ∀ x, a = some x → b.2.front ≤ x.2.front := by
  induction l generalizing a with
  | nil =>
    simp only [List.foldl_nil] at h
    refine ⟨by simp, ?_⟩
    intro x hx
    rw [h] at hx
    cases Option.some_inj.1 hx
    exact le_refl _
  | cons e rest ih =>
    simp only [List.foldl_cons] at h
    obtain ⟨hrest, hacc⟩ := ih _ h
    have hbe : (better a e).isSome := by
      cases a with
      | none => simp [better]
      | some c => simp only [better]; split <;> simp
    rcases Option.isSome_iff_exists.1 hbe with ⟨x0, hx0⟩
    obtain ⟨hx0e, hx0a⟩ := better_front_le a e x0 hx0
    have hbx0 : b.2.front ≤ x0.2.front := hacc x0 hx0
    refine ⟨?_, ?_⟩
    · intro f hf
      rcases List.mem_cons.1 hf with hf | hf
      · exact hf ▸ le_trans hbx0 hx0e
      · exact hrest f hf
    · intro x hx
      exact le_trans hbx0 (hx0a x hx)

/-! ### Replacer invariant -/

/-- Invariant of a reachable replacer state: with `k ≥ 1` every tracked frame
has a nonempty history of at most `k` timestamps, `curr_size_` counts the
evictable frames, and the `std::map` keys are strictly sorted. -/
def RInv (r : LRUKReplacer) : Prop :=
  1 ≤ r.k ∧
  (∀ e ∈ r.cache, e.2.accesses ≠ [] ∧ e.2.accesses.length ≤ r.k) ∧
  r.curr_size = (r.cache.filter (fun e => e.2.is_evictable)).length ∧
  (r.cache.map Prod.fst).Pairwise (· < ·)

theorem mem_updA_strong {β : Type} (key : Nat) (f : β → β) (l : List (Nat × β))
    (hnd : (l.map Prod.fst).Nodup) (e : Nat × β) (h : e ∈ updA key f l) :
    (e ∈ l ∧ e.1 ≠ key) ∨ ∃ w, (key, w) ∈ l ∧ e = (key, f w) := by
  induction l with
  | nil => simp [updA] at h
  | cons g rest ih =>
    simp only [List.map_cons, List.nodup_cons] at hnd
    simp only [updA] at h
    split at h
    · rename_i h1
      rcases List.mem_cons.1 h with h2 | h2
      · refine Or.inr ⟨g.2, ?_, ?_⟩
        · rw [← h1]
          exact List.mem_cons_self _ _
        · rw [h2, h1]
      · have hek : e.1 ≠ key := by
          intro hk
          exact hnd.1 (by rw [h1, ← hk]; exact List.mem_map_of_mem _ h2)
        exact Or.inl ⟨List.mem_cons_of_mem _ h2, hek⟩
    · rename_i h1
      rcases List.mem_cons.1 h with h2 | h2
      · refine Or.inl ⟨h2 ▸ List.mem_cons_self _ _, ?_⟩
        rw [h2]
        exact h1
      · rcases ih hnd.2 h2 with ⟨h3, h4⟩ | ⟨w, hw, he⟩
        · exact Or.inl ⟨List.mem_cons_of_mem _ h3, h4⟩
        · exact Or.inr ⟨w, List.mem_cons_of_mem _ hw, he⟩

theorem filter_length_updA {β : Type} (key : Nat) (f : β → β) (p : Nat × β → Bool)
    (hf : ∀ g w, p (g, f w) = p (g, w)) (l : List (Nat × β)) :
    ((updA key f l).filter p).length = (l.filter p).length := by
  induction l with
  | nil => rfl
  | cons g rest ih =>
    simp only [updA]
    split
    · simp only [List.filter_cons]
      rw [hf g.1 g.2]
      split <;> simp
    · simp only [List.filter_cons]
      split <;> simp [ih]

theorem filter_length_mapSet_new {β : Type} (key : Nat) (v : β) (p : Nat × β → Bool)
    (hv : p (key, v) = false) (l : List (Nat × β)) (hl : lookupA key l = none) :
    ((mapSet key v l).filter p).length = (l.filter p).length := by
  induction l with
  | nil => simp [mapSet, List.filter_cons, hv]
  | cons g rest ih =>
    simp only [lookupA] at hl
    have hg : ¬ g.1 = key := by
      intro hh
      rw [if_pos hh] at hl
      exact Option.noConfusion hl
    rw [if_neg hg] at hl
    simp only [mapSet]
    split
    · simp only [List.filter_cons, hv]
      simp
    · split
      · rename_i h1 h2
        exact absurd h2.symm hg
      · simp only [List.filter_cons]
        split <;> simp [ih hl]

theorem filter_length_updA_flag (key : Nat) (b : Bool) (fi : FrameInfo)
    (l : List (Nat × FrameInfo)) (h : lookupA key l = some fi) :
    ((updA key (fun w => { w with is_evictable := b }) l).filter
        (fun e => e.2.is_evictable)).length + (if fi.is_evictable then 1 else 0) =
      (l.filter (fun e => e.2.is_evictable)).length + (if b then 1 else 0) := by
  induction l with
  | nil => simp [lookupA] at h
  | cons g rest ih =>
    simp only [lookupA] at h
    by_cases h1 : g.1 = key
    · rw [if_pos h1] at h
      cases Option.some_inj.1 h
      simp only [updA, if_pos h1, List.filter_cons]
      cases hb : b <;> cases he : g.2.is_evictable <;> (simp [hb, he]; try omega)
    · rw [if_neg h1] at h
      have hih := ih h
      simp only [updA, if_neg h1, List.filter_cons]
      cases he : g.2.is_evictable <;> (simp [he]; omega)

theorem pushTs_flag (k ts : Nat) (w : FrameInfo) :
    (pushTs k ts w).is_evictable = w.is_evictable := by
  unfold pushTs
  split <;> rfl

theorem pushTs_accesses (k ts : Nat) (w : FrameInfo) :
    (pushTs k ts w).accesses =
      if k < (w.accesses ++ [ts]).length then (w.accesses ++ [ts]).tail
      else w.accesses ++ [ts] := by
  unfold pushTs
  split <;> rfl

theorem pushTs_len (k ts : Nat) (w : FrameInfo) (hk : 1 ≤ k)
    (hw : w.accesses.length ≤ k) :
    (pushTs k ts w).accesses ≠ [] ∧ (pushTs k ts w).accesses.length ≤ k := by
  simp only [pushTs_accesses]
  by_cases hlong : k < (w.accesses ++ [ts]).length
  · rw [if_pos hlong]
    have hlen : (w.accesses ++ [ts]).tail.length = (w.accesses ++ [ts]).length - 1 :=
      List.length_tail _
    simp only [List.length_append, List.length_cons, List.length_nil] at hlong hlen
    constructor
    · intro htail
      rw [htail] at hlen
      simp only [List.length_nil] at hlen
      omega
    · omega
  · rw [if_neg hlong]
    simp only [not_lt, List.length_append, List.length_cons, List.length_nil] at hlong
    refine ⟨by simp, ?_⟩
    simp only [List.length_append, List.length_cons, List.length_nil]
    omega

theorem ensureFrame_sorted (fid : Nat) (cache : List (Nat × FrameInfo))
    (h : (cache.map Prod.fst).Pairwise (· < ·)) :
    ((ensureFrame fid cache).map Prod.fst).Pairwise (· < ·) := by
  unfold ensureFrame
  cases lookupA fid cache with
  | none => exact mapSet_map_fst_sorted _ _ _ h
  | some fi => exact h

theorem mem_ensureFrame (fid : Nat) (cache : List (Nat × FrameInfo)) (e : Nat × FrameInfo)
    (h : e ∈ ensureFrame fid cache) :
    e = (fid, (⟨[], false⟩ : FrameInfo)) ∨ e ∈ cache := by
  unfold ensureFrame at h
  revert h
  cases lookupA fid cache with
  | none => exact fun h => mem_mapSet _ _ _ _ h
  | some fi => exact fun h => Or.inr h

theorem ensureFrame_filter_len (fid : Nat) (cache : List (Nat × FrameInfo)) :
    ((ensureFrame fid cache).filter (fun e => e.2.is_evictable)).length =
      (cache.filter (fun e => e.2.is_evictable)).length := by
  unfold ensureFrame
  cases hl : lookupA fid cache with
  | none => exact filter_length_mapSet_new fid _ _ (by simp) cache hl
  | some fi => rfl

theorem RInv_init (num_frames k : Nat) (hk : 1 ≤ k) :
    RInv (LRUKReplacer.init num_frames k) := by
  unfold RInv
  refine ⟨hk, ?_, ?_, ?_⟩ <;> simp [LRUKReplacer.init]

theorem RInv_recordAccess (r r2 : LRUKReplacer) (fid : Nat) (h : RInv r)
    (hr : r.recordAccess fid = some r2) : RInv r2 := by
  obtain ⟨hk, hacc, hsz, hsort⟩ := h
  unfold LRUKReplacer.recordAccess at hr
  split at hr
  · exact Option.noConfusion hr
  · cases Option.some_inj.1 hr
    have hsort0 := ensureFrame_sorted fid r.cache hsort
    refine ⟨hk, ?_, ?_, ?_⟩
    · intro e he
      rcases mem_updA_strong fid _ _ (hsort0.imp ne_of_lt) e he with
        ⟨h2, hne⟩ | ⟨w, hw, he2⟩
      · rcases mem_ensureFrame fid r.cache e h2 with h3 | h3
        · exact absurd (by rw [h3]) hne
        · exact hacc e h3
      · rw [he2]
        have hwlen : w.accesses.length ≤ r.k := by
          rcases mem_ensureFrame fid r.cache _ hw with h3 | h3
          · have : w = (⟨[], false⟩ : FrameInfo) := congrArg Prod.snd h3
            rw [this]
            simp
          · exact (hacc _ h3).2
        exact pushTs_len r.k r.current_timestamp w hk hwlen
    · show r.curr_size = _
      rw [hsz]
      rw [filter_length_updA fid (pushTs r.k r.current_timestamp)
        (fun e => e.2.is_evictable) (fun g w => by simp [pushTs_flag]) (ensureFrame fid r.cache)]
      rw [ensureFrame_filter_len]
    · show (List.map Prod.fst (updA fid _ _)).Pairwise (· < ·)
      rw [updA_map_fst]
      exact hsort0

theorem RInv_setEvictable (r r2 : LRUKReplacer) (fid : Nat) (b : Bool) (h : RInv r)
    (hr : r.setEvictable fid b = some r2) : RInv r2 := by
  obtain ⟨hk, hacc, hsz, hsort⟩ := h
  unfold LRUKReplacer.setEvictable at hr
  split at hr
  · exact Option.noConfusion hr
  · revert hr
    cases hl : lookupA fid r.cache with
    | none =>
      intro hr
      cases Option.some_inj.1 hr
      exact ⟨hk, hacc, hsz, hsort⟩
    | some fi =>
      intro hr
      cases Option.some_inj.1 hr
      have hcnt := filter_length_updA_flag fid b fi r.cache hl
      refine ⟨hk, ?_, ?_, ?_⟩
      · intro e he
        rcases mem_updA_strong fid _ _ (hsort.imp ne_of_lt) e he with
          ⟨h2, _⟩ | ⟨w, hw, he2⟩
        · exact hacc e h2
        · rw [he2]
          exact hacc (fid, w) hw
      · show (if !fi.is_evictable && b then r.curr_size + 1
              else if fi.is_evictable && !b then r.curr_size - 1
              else r.curr_size) = _
        rw [hsz]
        cases hb : b <;> cases he : fi.is_evictable <;>
          (simp [hb, he] at hcnt ⊢
           omega)
      · show (List.map Prod.fst (updA fid _ _)).Pairwise (· < ·)
        rw [updA_map_fst]
        exact hsort

theorem RInv_rstep (r r2 : LRUKReplacer) (op : ROp) (h : RInv r)
    (hr : rstep r op = some r2) : RInv r2 := by
  cases op with
  | record fid => exact RInv_recordAccess r r2 fid h hr
  | setEvictable fid b => exact RInv_setEvictable r r2 fid b h hr

theorem recordAccess_config (r r2 : LRUKReplacer) (fid : Nat)
    (hr : r.recordAccess fid = some r2) :
    r2.replacer_size = r.replacer_size ∧ r2.k = r.k := by
  unfold LRUKReplacer.recordAccess at hr
  split at hr
  · exact Option.noConfusion hr
  · cases Option.some_inj.1 hr
    exact ⟨rfl, rfl⟩

theorem setEvictable_config (r r2 : LRUKReplacer) (fid : Nat) (b : Bool)
    (hr : r.setEvictable fid b = some r2) :
    r2.replacer_size = r.replacer_size ∧ r2.k = r.k := by
  unfold LRUKReplacer.setEvictable at hr
  split at hr
  · exact Option.noConfusion hr
  · revert hr
    cases lookupA fid r.cache with
    | none =>
      intro hr
      cases Option.some_inj.1 hr
      exact ⟨rfl, rfl⟩
    | some fi =>
      intro hr
      cases Option.some_inj.1 hr
      exact ⟨rfl, rfl⟩

theorem rstep_config (r r2 : LRUKReplacer) (op : ROp) (hr : rstep r op = some r2) :
    r2.replacer_size = r.replacer_size ∧ r2.k = r.k := by
  cases op with
  | record fid => exact recordAccess_config r r2 fid hr
  | setEvictable fid b => exact setEvictable_config r r2 fid b hr

theorem RInv_runFrom (ops : List ROp) (r r2 : LRUKReplacer) (h : RInv r)
    (hr : runFrom r ops = some r2) :
    RInv r2 ∧ r2.replacer_size = r.replacer_size ∧ r2.k = r.k := by
  induction ops generalizing r with
  | nil =>
    cases Option.some_inj.1 hr
    exact ⟨h, rfl, rfl⟩
  | cons op rest ih =>
    unfold runFrom at hr
    revert hr
    cases hs : rstep r op with
    | none => intro hr; exact Option.noConfusion hr
    | some r1 =>
      intro hr
      obtain ⟨h1, h2, h3⟩ := ih r1 (RInv_rstep r r1 op h hs) hr
      obtain ⟨h4, h5⟩ := rstep_config r r1 op hs
      exact ⟨h1, h2.trans h4, h3.trans h5⟩

theorem RInv_runROps (num_frames k : Nat) (ops : List ROp) (r : LRUKReplacer)
    (hk : 1 ≤ k) (hr : runROps num_frames k ops = some r) :
    RInv r ∧ r.replacer_size = num_frames ∧ r.k = k :=
  RInv_runFrom ops _ r (RInv_init num_frames k hk) hr

theorem runFrom_config (ops : List ROp) (r r2 : LRUKReplacer)
    (hr : runFrom r ops = some r2) :
    r2.replacer_size = r.replacer_size ∧ r2.k = r.k := by
  induction ops generalizing r with
  | nil =>
    cases Option.some_inj.1 hr
    exact ⟨rfl, rfl⟩
  | cons op rest ih =>
    unfold runFrom at hr
    revert hr
    cases hs : rstep r op with
    | none => intro hr; exact Option.noConfusion hr
    | some r1 =>
      intro hr
      obtain ⟨h2, h3⟩ := ih r1 hr
      obtain ⟨h4, h5⟩ := rstep_config r r1 op hs
      exact ⟨h2.trans h4, h3.trans h5⟩

/-- C2: for every sequence of `RecordAccess` and `SetEvictable` calls on the
LRU-K replacer (with `k ≥ 1`, and no assertion fired along the run), `Evict`
returns `none` exactly when no tracked frame is evictable; otherwise it
returns an evictable tracked frame and removes it from the map, choosing it
as follows: if any evictable frame has fewer than `k` recorded accesses, a
fewer-than-`k` frame whose front-of-history timestamp is minimal among the
fewer-than-`k` evictable frames; else all evictable frames have exactly `k`
accesses and the victim has the minimal front-of-history timestamp among all
evictable frames. -/
theorem lruk_evict_policy (num_frames k : Nat) (hk : 1 ≤ k) (ops : List ROp)
    (r : LRUKReplacer) (hrun : runROps num_frames k ops = some r) :
    ((r.evict.1 = none) ↔ ∀ e ∈ r.cache, e.2.is_evictable = false) ∧
    (∀ fid, r.evict.1 = some fid →
      ∃ fi, (fid, fi) ∈ r.cache ∧ fi.is_evictable = true ∧
        lookupA fid (r.evict.2).cache = none ∧
        (∀ g, g ≠ fid → lookupA g (r.evict.2).cache = lookupA g r.cache) ∧
        ((fi.accesses.length < k ∧
            ∀ e ∈ r.cache, e.2.is_evictable = true → e.2.accesses.length < k →
              fi.front ≤ e.2.front) ∨
          ((∀ e ∈ r.cache, e.2.is_evictable = true → e.2.accesses.length = k) ∧
            fi.accesses.length = k ∧
            ∀ e ∈ r.cache, e.2.is_evictable = true → fi.front ≤ e.2.front))) := by
  obtain ⟨⟨hk1, hacc, hsz, hsort⟩, hnf, hkk⟩ := RInv_runROps num_frames k ops r hk hrun
  have hnd : (r.cache.map Prod.fst).Nodup := hsort.imp ne_of_lt
  by_cases hz : r.curr_size = 0
  · have hev : r.evict = (none, r) := by
      unfold LRUKReplacer.evict
      rw [if_pos hz]
    constructor
    · rw [hev]
      simp only [true_iff]
      have hfe : r.cache.filter (fun e => e.2.is_evictable) = [] := by
        rw [hz] at hsz
        exact List.length_eq_zero.1 hsz.symm
      intro e he
      by_contra hev2
      have : e ∈ r.cache.filter (fun e => e.2.is_evictable) :=
        List.mem_filter.2 ⟨he, by simpa using hev2⟩
      rw [hfe] at this
      exact absurd this (List.not_mem_nil e)
    · intro fid hfid
      rw [hev] at hfid
      exact Option.noConfusion hfid
  · have hFne : r.cache.filter (fun e => e.2.is_evictable) ≠ [] := by
      intro hfe
      rw [hfe] at hsz
      exact hz (by simpa using hsz)
    obtain ⟨e0, he0⟩ := List.exists_mem_of_ne_nil _ hFne
    obtain ⟨he0c, he0ev⟩ := List.mem_filter.1 he0
    cases hLK : (r.cache.filter
        (fun e => e.2.is_evictable && !e.2.hasK r.k)).foldl better none with
    | some e =>
      have hev : r.evict =
          (some e.1,
            { r with cache := eraseA e.1 r.cache, curr_size := r.curr_size - 1 }) := by
        unfold LRUKReplacer.evict
        rw [if_neg hz]
        simp only [scan_foldl_eq, hLK]
      have hmem : e ∈ r.cache.filter (fun e => e.2.is_evictable && !e.2.hasK r.k) := by
        rcases foldl_better_mem _ _ _ hLK with h1 | h1
        · exact Option.noConfusion h1
        · exact h1
      obtain ⟨hec, hprop⟩ := List.mem_filter.1 hmem
      simp only [Bool.and_eq_true, Bool.not_eq_true] at hprop
      have helen : e.2.accesses.length < k := by
        have h2 := (hacc e hec).2
        have h3 : ¬ (e.2.accesses.length = r.k) := by
          intro hh
          rw [FrameInfo.hasK] at hprop
          simp [hh] at hprop
        omega
      obtain ⟨hminLK, -⟩ := foldl_better_min _ _ _ hLK
      refine ⟨?_, fun fid hfid => ?_⟩
      · rw [hev]
        refine ⟨fun hn => Option.noConfusion hn, fun hall => ?_⟩
        exact absurd (hall e hec) (by simp [hprop.1])
      · rw [hev] at hfid
        cases Option.some_inj.1 hfid
        refine ⟨e.2, hec, hprop.1, ?_, ?_, ?_⟩
        · rw [hev]
          exact lookupA_eraseA_self _ _ hnd
        · intro g hg
          rw [hev]
          exact lookupA_eraseA_ne _ _ _ hg
        · left
          refine ⟨helen, ?_⟩
          intro f hf hfev hflen
          have hfLK : f ∈ r.cache.filter
              (fun e => e.2.is_evictable && !e.2.hasK r.k) := by
            refine List.mem_filter.2 ⟨hf, ?_⟩
            simp only [Bool.and_eq_true, Bool.not_eq_true]
            refine ⟨hfev, ?_⟩
            simp only [FrameInfo.hasK]
            simp
            omega
          exact hminLK f hfLK
    | none =>
      have hLKnil : r.cache.filter
          (fun e => e.2.is_evictable && !e.2.hasK r.k) = [] :=
        ((foldl_better_none _ _).1 hLK).2
      have hallK : ∀ f ∈ r.cache, f.2.is_evictable = true → f.2.accesses.length = k := by
        intro f hf hfev
        by_contra hne
        have : f ∈ r.cache.filter (fun e => e.2.is_evictable && !e.2.hasK r.k) := by
          refine List.mem_filter.2 ⟨hf, ?_⟩
          simp only [Bool.and_eq_true, Bool.not_eq_true]
          refine ⟨hfev, ?_⟩
          simp only [FrameInfo.hasK]
          simp
          omega
        rw [hLKnil] at this
        exact absurd this (List.not_mem_nil f)
      cases hKH : (r.cache.filter
          (fun e => e.2.is_evictable && e.2.hasK r.k)).foldl better none with
      | none =>
        exfalso
        have hKHnil : r.cache.filter
            (fun e => e.2.is_evictable && e.2.hasK r.k) = [] :=
          ((foldl_better_none _ _).1 hKH).2
        have h0 : e0.2.accesses.length = k := hallK e0 he0c he0ev
        have : e0 ∈ r.cache.filter (fun e => e.2.is_evictable && e.2.hasK r.k) := by
          refine List.mem_filter.2 ⟨he0c, ?_⟩
          simp only [Bool.and_eq_true]
          refine ⟨he0ev, ?_⟩
          simp only [FrameInfo.hasK]
          simp
          omega
        rw [hKHnil] at this
        exact absurd this (List.not_mem_nil e0)
      | some e =>
        have hev : r.evict =
            (some e.1,
              { r with cache := eraseA e.1 r.cache, curr_size := r.curr_size - 1 }) := by
          unfold LRUKReplacer.evict
          rw [if_neg hz]
          simp only [scan_foldl_eq, hLK, hKH]
        have hmem : e ∈ r.cache.filter (fun e => e.2.is_evictable && e.2.hasK r.k) := by
          rcases foldl_better_mem _ _ _ hKH with h1 | h1
          · exact Option.noConfusion h1
          · exact h1
        obtain ⟨hec, hprop⟩ := List.mem_filter.1 hmem
        simp only [Bool.and_eq_true] at hprop
        obtain ⟨hminKH, -⟩ := foldl_better_min _ _ _ hKH
        refine ⟨?_, fun fid hfid => ?_⟩
        · rw [hev]
          refine ⟨fun hn => Option.noConfusion hn, fun hall => ?_⟩
          exact absurd (hall e hec) (by simp [hprop.1])
        · rw [hev] at hfid
          cases Option.some_inj.1 hfid
          refine ⟨e.2, hec, hprop.1, ?_, ?_, ?_⟩
          · rw [hev]
            exact lookupA_eraseA_self _ _ hnd
          · intro g hg
            rw [hev]
            exact lookupA_eraseA_ne _ _ _ hg
          · right
            refine ⟨hallK, hallK e hec hprop.1, ?_⟩
            intro f hf hfev
            have hfKH : f ∈ r.cache.filter
                (fun e => e.2.is_evictable && e.2.hasK r.k) := by
              refine List.mem_filter.2 ⟨hf, ?_⟩
              simp only [Bool.and_eq_true]
              refine ⟨hfev, ?_⟩
              simp only [FrameInfo.hasK]
              simp
              rw [hkk]
              exact hallK f hf hfev
            exact hminKH f hfKH

/-- Concrete replacer state reached by `RecordAccess(0); SetEvictable(0, true)`
on a replacer of capacity 7 with `k = 2`. -/
def rW : LRUKReplacer := ⟨7, 2, [(0, ⟨[0], true⟩)], 1, 1⟩

/-- Witness for the eviction-policy theorem at a concrete run. -/
theorem lruk_evict_policy_witness :
    ((rW.evict.1 = none) ↔ ∀ e ∈ rW.cache, e.2.is_evictable = false) ∧
    (∀ fid, rW.evict.1 = some fid →
      ∃ fi, (fid, fi) ∈ rW.cache ∧ fi.is_evictable = true ∧
        lookupA fid (rW.evict.2).cache = none ∧
        (∀ g, g ≠ fid → lookupA g (rW.evict.2).cache = lookupA g rW.cache) ∧
        ((fi.accesses.length < 2 ∧
            ∀ e ∈ rW.cache, e.2.is_evictable = true → e.2.accesses.length < 2 →
              fi.front ≤ e.2.front) ∨
          ((∀ e ∈ rW.cache, e.2.is_evictable = true → e.2.accesses.length = 2) ∧
            fi.accesses.length = 2 ∧
            ∀ e ∈ rW.cache, e.2.is_evictable = true → fi.front ≤ e.2.front))) :=
  lruk_evict_policy 7 2 (by decide) [ROp.record 0, ROp.setEvictable 0 true] rW (by rfl)

/-- C8 counterexample: the claim says the invalid-frame-id assertion fires for
every `frame_id ≥ num_frames`, but at `frame_id = num_frames` (here both 3)
neither `RecordAccess` nor `SetEvictable` trips the assertion: the source
checks `size_t(frame_id) <= replacer_size_`, an off-by-one against the claim. -/
theorem lruk_assert_at_capacity_counterexample :
    ¬ ((LRUKReplacer.init 3 2).recordAccess 3 = none) ∧
    ¬ ((LRUKReplacer.init 3 2).setEvictable 3 true = none) := by
  decide

/-- C8 amended: on any reachable replacer of capacity `num_frames`,
`RecordAccess` and `SetEvictable` trip the invalid-frame-id assertion exactly
when `frame_id` is strictly greater than `num_frames`; in particular the
assertion never fires for `frame_id < num_frames`, and also not at
`frame_id = num_frames`. -/
theorem lruk_assert_boundary (num_frames k : Nat) (ops : List ROp) (r : LRUKReplacer)
    (hrun : runROps num_frames k ops = some r) (fid : Nat) (b : Bool) :
    (r.recordAccess fid = none ↔ num_frames < fid) ∧
    (r.setEvictable fid b = none ↔ num_frames < fid) := by
  obtain ⟨hnf, -⟩ := runFrom_config ops _ r hrun
  simp only [LRUKReplacer.init] at hnf
  constructor
  · unfold LRUKReplacer.recordAccess
    by_cases h : num_frames < fid
    · rw [if_pos (by rw [hnf]; exact h)]
      simp [h]
    · rw [if_neg (by rw [hnf]; exact h)]
      simp [h]
  · unfold LRUKReplacer.setEvictable
    by_cases h : num_frames < fid
    · rw [if_pos (by rw [hnf]; exact h)]
      simp [h]
    · rw [if_neg (by rw [hnf]; exact h)]
      cases lookupA fid r.cache <;> simp [h]

/-- Witness for the assertion-boundary theorem at a concrete state. -/
theorem lruk_assert_boundary_witness :
    ((LRUKReplacer.init 3 2).recordAccess 4 = none ↔ 3 < 4) ∧
    ((LRUKReplacer.init 3 2).setEvictable 4 true = none ↔ 3 < 4) :=
  lruk_assert_boundary 3 2 [] (LRUKReplacer.init 3 2) rfl 4 true

/-!
### Extendible hash table

Translated from `ExtendibleHashTable` in
`src/container/hash/extendible_hash_table.cpp` (the mutex-guarded variant
whose public `Insert` is a retry loop).  The directory of
`std::shared_ptr<Bucket>` is modelled as a list of bucket ids plus an
id-keyed bucket store, so that aliased directory slots share one bucket; the
template hash `std::hash<K>` is an explicit function `h : K → Nat`.
`IndexOf` computes `hash & ((1 << global_depth) - 1)`, the low
`global_depth` bits, i.e. `hash % 2 ^ global_depth`. -/

variable {K V : Type}

/-- Bucket state: capacity `size_`, local depth `depth_` and the entry list
`list_` in insertion order. -/
structure Bucket (K V : Type) where
  size : Nat
  depth : Nat
  list : List (K × V)
deriving Repr, DecidableEq

/-- Scan of `Bucket::Find`: first entry with the given key. -/
def scanFind [DecidableEq K] (key : K) : List (K × V) → Option V
  | [] => none
  | (k, v) :: rest => if k = key then some v else scanFind key rest

/-- Scan of `Bucket::Remove`: erase the first entry with the given key,
`none` when the key is absent (the method returns `false`). -/
def scanRemove [DecidableEq K] (key : K) : List (K × V) → Option (List (K × V))
  | [] => none
  | (k, v) :: rest =>
    if k = key then some rest
    else (scanRemove key rest).map (fun l => (k, v) :: l)

/-- Update scan of `Bucket::Insert`: replace the value of the first entry with
the given key, `none` when the key is absent. -/
def scanUpdate [DecidableEq K] (key : K) (v : V) : List (K × V) → Option (List (K × V))
  | [] => none
  | (k, w) :: rest =>
    if k = key then some ((k, v) :: rest)
    else (scanUpdate key v rest).map (fun l => (k, w) :: l)

/-- Translation of `Bucket::Insert`: update in place on a duplicate key; fail
on a full bucket (`IsFull()` is `list_.size() == size_` per the header);
otherwise append. -/
def Bucket.insertB [DecidableEq K] (b : Bucket K V) (key : K) (v : V) :
    Option (Bucket K V) :=
  match scanUpdate key v b.list with
  | some l2 => some { b with list := l2 }
  | none =>
    if b.list.length = b.size then none
    else some { b with list := b.list ++ [(key, v)] }

/-- Translation of `Bucket::Find`. -/
def Bucket.findB [DecidableEq K] (b : Bucket K V) (key : K) : Option V :=
  scanFind key b.list

/-- Table state: `global_depth_`, `bucket_size_`, `num_buckets_`, the
directory `dir_` as bucket ids, and the bucket store (fresh ids come from
`next_bid`). -/
structure EHT (K V : Type) where
  global_depth : Nat
  bucket_size : Nat
  num_buckets : Nat
  next_bid : Nat
  dir : List Nat
  buckets : List (Nat × Bucket K V)
deriving Repr, DecidableEq

/-- Translation of the constructor: depth 0, one empty bucket, directory of
one slot. -/
def EHT.init (K V : Type) (bucket_size : Nat) : EHT K V :=
  ⟨0, bucket_size, 1, 1, [0], [(0, ⟨bucket_size, 0, []⟩)]⟩

/-- Translation of `IndexOf`: the low `global_depth` bits of the hash. -/
def indexOf (h : K → Nat) (d : Nat) (key : K) : Nat := h key % 2 ^ d

/-- Directory slot access `dir_[i]`. -/
def EHT.dirBid (t : EHT K V) (i : Nat) : Nat := t.dir.getD i 0

/-- Dereference of a bucket id (a `shared_ptr` in the source). -/
def EHT.bucketOf (t : EHT K V) (bid : Nat) : Bucket K V :=
  (lookupA bid t.buckets).getD ⟨0, 0, []⟩

/-- Bucket id the key hashes to: `dir_[IndexOf(key)]`. -/
def EHT.homeBid [DecidableEq K] (h : K → Nat) (t : EHT K V) (key : K) : Nat :=
  t.dirBid (indexOf h t.global_depth key)

/-- Translation of `ExtendibleHashTable::Find`. -/
def EHT.findT [DecidableEq K] (h : K → Nat) (t : EHT K V) (key : K) : Option V :=
  (t.bucketOf (t.homeBid h key)).findB key

/-- Translation of `ExtendibleHashTable::Remove`. -/
def EHT.removeT [DecidableEq K] (h : K → Nat) (t : EHT K V) (key : K) :
    Bool × EHT K V :=
  match scanRemove key (t.bucketOf (t.homeBid h key)).list with
  | none => (false, t)
  | some l2 =>
    (true,
      { t with
        buckets := setA (t.homeBid h key)
          { t.bucketOf (t.homeBid h key) with list := l2 } t.buckets })

/-- Redistribution loop of the split: each item of the overflowing bucket is
inserted into the `one` bucket when bit `local_depth - 1` of its hash is set,
else into the `zero` bucket (a failed `Insert` drops the item, as in the
source, though it cannot occur). -/
def distItems [DecidableEq K] (h : K → Nat) (ld : Nat) :
    List (K × V) → Bucket K V → Bucket K V → Bucket K V × Bucket K V
  | [], zb, ob => (zb, ob)
  | it :: rest, zb, ob =>
    if Nat.testBit (h it.1) (ld - 1) then
      distItems h ld rest zb ((ob.insertB it.1 it.2).getD ob)
    else
      distItems h ld rest ((zb.insertB it.1 it.2).getD zb) ob

/-- Directory-repoint loop of the split: every slot still referencing the old
bucket is redirected to the `one` or `zero` bucket according to bit
`local_depth - 1` of the slot index.  `j` is the index of the first slot of
the remaining list. -/
def repointAux (bid z o bitIdx : Nat) : Nat → List Nat → List Nat
  | _, [] => []
  | j, d :: rest =>
    (if d = bid then (if Nat.testBit j bitIdx then o else z) else d) ::
      repointAux bid z o bitIdx (j + 1) rest

def repoint (bid z o bitIdx : Nat) (dir : List Nat) : List Nat :=
  repointAux bid z o bitIdx 0 dir

/-- Directory-doubling step of the split (`1.1` / `1.2` in the source): when
the overflowing bucket's local depth equals the global depth, increment the
global depth and append a copy of every directory slot. -/
def doubleIfNeeded [DecidableEq K] (h : K → Nat) (t : EHT K V) (key : K) : EHT K V :=
  if (t.bucketOf (t.homeBid h key)).depth = t.global_depth then
    { t with global_depth := t.global_depth + 1, dir := t.dir ++ t.dir }
  else t

/-- Split of the full bucket `bid` (steps `2` / `3` of the source, after any
doubling): the bucket's depth is incremented to `ℓ+1`; two fresh buckets at
depth `ℓ+1` receive its items split on hash bit `ℓ`; every directory slot
still referencing `bid` is repointed by bit `ℓ` of the slot index; and
`num_buckets_` is incremented.  `zeroId` is `t1.next_bid` and `oneId` is
`t1.next_bid + 1`. -/
def splitBucket [DecidableEq K] (h : K → Nat) (t1 : EHT K V) (bid : Nat) : EHT K V :=
  { t1 with
    dir := repoint bid t1.next_bid (t1.next_bid + 1) (t1.bucketOf bid).depth t1.dir,
    buckets :=
      (t1.next_bid,
        (distItems h ((t1.bucketOf bid).depth + 1) (t1.bucketOf bid).list
          ⟨t1.bucket_size, (t1.bucketOf bid).depth + 1, []⟩
          ⟨t1.bucket_size, (t1.bucketOf bid).depth + 1, []⟩).1) ::
      (t1.next_bid + 1,
        (distItems h ((t1.bucketOf bid).depth + 1) (t1.bucketOf bid).list
          ⟨t1.bucket_size, (t1.bucketOf bid).depth + 1, []⟩
          ⟨t1.bucket_size, (t1.bucketOf bid).depth + 1, []⟩).2) ::
      setA bid { t1.bucketOf bid with depth := (t1.bucketOf bid).depth + 1 } t1.buckets,
    num_buckets := t1.num_buckets + 1,
    next_bid := t1.next_bid + 2 }

/-- Translation of `ExtendibleHashTable::Insert`, the `while` loop made
explicit with fuel: a full home bucket triggers a directory doubling when its
local depth equals the global depth, then a split of the bucket into two
fresh buckets at local depth `ℓ+1` (the split reads the incremented depth
`local_depth = ℓ+1` and masks on bit `local_depth - 1 = ℓ`), and the insert
is retried.  The home bucket id is read before the doubling, as `dir_[index]`
with the pre-doubling `index` still points at the same bucket afterwards. -/
def EHT.insertT [DecidableEq K] (h : K → Nat) :
    Nat → EHT K V → K → V → Option (EHT K V)
  | 0, _, _, _ => none
  | fuel + 1, t, key, v =>
    match (t.bucketOf (t.homeBid h key)).insertB key v with
    | some b2 => some { t with buckets := setA (t.homeBid h key) b2 t.buckets }
    | none =>
      EHT.insertT h fuel (splitBucket h (doubleIfNeeded h t key) (t.homeBid h key)) key v

/-- A call in an `Insert` / `Remove` / `Find` sequence. -/
inductive EOp (K V : Type) where
  | insert (key : K) (v : V)
  | remove (key : K)
  | find (key : K)
deriving Repr

/-- Apply one hash-table call; `none` when an `Insert` does not complete
within its fuel. -/
def estep [DecidableEq K] (h : K → Nat) (fuel : Nat) (t : EHT K V) :
    EOp K V → Option (EHT K V)
  | EOp.insert key v => EHT.insertT h fuel t key v
  | EOp.remove key => some (EHT.removeT h t key).2
  | EOp.find _ => some t

def runEFrom [DecidableEq K] (h : K → Nat) (fuel : Nat) (t : EHT K V) :
    List (EOp K V) → Option (EHT K V)
  | [] => some t
  | op :: ops =>
    match estep h fuel t op with
    | none => none
    | some t1 => runEFrom h fuel t1 ops

def runEHT [DecidableEq K] (h : K → Nat) (bucket_size fuel : Nat)
    (ops : List (EOp K V)) : Option (EHT K V) :=
  runEFrom h fuel (EHT.init K V bucket_size) ops

/-- Delete every binding of a key from the reference model. -/
def modelErase [DecidableEq K] (key : K) : List (K × V) → List (K × V)
  | [] => []
  | (k, v) :: rest =>
    if k = key then modelErase key rest else (k, v) :: modelErase key rest

/-- Reference model of the call sequence: an insert prepends its binding
(after deleting older ones), a remove deletes every binding of the key, and
the most recent binding of a key is the first match. -/
def modelStep [DecidableEq K] (m : List (K × V)) : EOp K V → List (K × V)
  | EOp.insert key v => (key, v) :: modelErase key m
  | EOp.remove key => modelErase key m
  | EOp.find _ => m

def modelRun [DecidableEq K] (m : List (K × V)) : List (EOp K V) → List (K × V)
  | [] => m
  | op :: ops => modelRun (modelStep m op) ops

def modelOf [DecidableEq K] (ops : List (EOp K V)) : List (K × V) :=
  modelRun [] ops

/-! ### Lemmas about the scans and the bucket store -/

theorem lookupA_setA_self {β : Type} (key : Nat) (v : β) (l : List (Nat × β))
    (h : (lookupA key l).isSome) : lookupA key (setA key v l) = some v := by
  induction l with
  | nil => simp [lookupA] at h
  | cons g rest ih =>
    simp only [setA]
    by_cases h1 : g.1 = key
    · rw [if_pos h1]
      show lookupA key ((g.1, v) :: rest) = some v
      rw [lookupA, if_pos h1]
    · rw [if_neg h1]
      show lookupA key ((g.1, g.2) :: setA key v rest) = some v
      rw [lookupA, if_neg h1]
      apply ih
      rw [lookupA, if_neg h1] at h
      exact h

theorem lookupA_setA_ne {β : Type} (key g : Nat) (v : β) (l : List (Nat × β))
    (h : g ≠ key) : lookupA g (setA key v l) = lookupA g l := by
  induction l with
  | nil => rfl
  | cons e rest ih =>
    simp only [setA]
    by_cases h1 : e.1 = key
    · rw [if_pos h1]
      show lookupA g ((e.1, v) :: rest) = lookupA g (e :: rest)
      rw [lookupA, lookupA]
      have h2 : ¬ (e.1 = g) := fun hh => h (hh.symm.trans h1)
      rw [if_neg h2, if_neg h2]
    · rw [if_neg h1]
      show lookupA g ((e.1, e.2) :: setA key v rest) = lookupA g (e :: rest)
      rw [lookupA, lookupA, ih]

theorem setA_map_fst {β : Type} (key : Nat) (v : β) (l : List (Nat × β)) :
    (setA key v l).map Prod.fst = l.map Prod.fst := by
  induction l with
  | nil => rfl
  | cons e rest ih =>
    simp only [setA]
    by_cases h1 : e.1 = key
    · simp [h1]
    · simp [h1, ih]

theorem mem_setA {β : Type} (key : Nat) (v : β) (l : List (Nat × β)) (e : Nat × β)
    (h : e ∈ setA key v l) : e ∈ l ∨ e = (key, v) := by
  induction l with
  | nil => simp [setA] at h
  | cons g rest ih =>
    simp only [setA] at h
    split at h
    · rename_i h1
      rcases List.mem_cons.1 h with h2 | h2
      · exact Or.inr (by rw [h2, h1])
      · exact Or.inl (List.mem_cons_of_mem _ h2)
    · rcases List.mem_cons.1 h with h2 | h2
      · exact Or.inl (h2 ▸ List.mem_cons_self _ _)
      · rcases ih h2 with h3 | h3
        · exact Or.inl (List.mem_cons_of_mem _ h3)
        · exact Or.inr h3

theorem getD_mem {β : Type} [Inhabited β] (l : List β) (i : Nat) (d : β)
    (h : i < l.length) : l.getD i d ∈ l := by
  induction l generalizing i with
  | nil => simp at h
  | cons e rest ih =>
    cases i with
    | zero => simp
    | succ j =>
      simp only [List.getD_cons_succ]
      exact List.mem_cons_of_mem _ (ih j (by simpa using h))

/-! Scan lemmas. -/

theorem scanFind_eq_none_iff [DecidableEq K] (key : K) (l : List (K × V)) :
    scanFind key l = none ↔ key ∉ l.map Prod.fst := by
  induction l with
  | nil => simp [scanFind]
  | cons e rest ih =>
    simp only [scanFind, List.map_cons, List.mem_cons]
    by_cases h1 : e.1 = key
    · simp [h1]
    · rw [if_neg h1]
      rw [ih]
      constructor
      · intro h2
        push_neg
        exact ⟨fun hh => h1 hh.symm, h2⟩
      · intro h2
        push_neg at h2
        exact h2.2

theorem scanUpdate_eq_none_iff [DecidableEq K] (key : K) (v : V) (l : List (K × V)) :
    scanUpdate key v l = none ↔ key ∉ l.map Prod.fst := by
  induction l with
  | nil => simp [scanUpdate]
  | cons e rest ih =>
    simp only [scanUpdate, List.map_cons, List.mem_cons]
    by_cases h1 : e.1 = key
    · simp [h1]
    · rw [if_neg h1]
      rw [Option.map_eq_none']
      rw [ih]
      constructor
      · intro h2
        push_neg
        exact ⟨fun hh => h1 hh.symm, h2⟩
      · intro h2
        push_neg at h2
        exact h2.2

theorem scanUpdate_some_spec [DecidableEq K] (key : K) (v : V) (l l2 : List (K × V))
    (h : scanUpdate key v l = some l2) :
    l2.map Prod.fst = l.map Prod.fst ∧ l2.length = l.length ∧
    scanFind key l2 = some v ∧ ∀ g, g ≠ key → scanFind g l2 = scanFind g l := by
  induction l generalizing l2 with
  | nil => simp [scanUpdate] at h
  | cons e rest ih =>
    simp only [scanUpdate] at h
    by_cases h1 : e.1 = key
    · rw [if_pos h1] at h
      cases Option.some_inj.1 h
      refine ⟨by simp, by simp, ?_, ?_⟩
      · rw [scanFind, if_pos h1]
      · intro g hg
        have h2 : ¬ (e.1 = g) := fun hh => hg (hh.symm.trans h1)
        rw [scanFind, if_neg h2, scanFind, if_neg h2]
    · rw [if_neg h1] at h
      cases hrec : scanUpdate key v rest with
      | none => rw [hrec] at h; exact Option.noConfusion h
      | some r2 =>
        rw [hrec] at h
        cases Option.some_inj.1 h
        obtain ⟨ha, hb, hc, hd⟩ := ih r2 hrec
        refine ⟨by simp [ha], by simp [hb], ?_, ?_⟩
        · rw [scanFind, if_neg h1]
          exact hc
        · intro g hg
          rw [scanFind, scanFind]
          by_cases h2 : e.1 = g
          · rw [if_pos h2, if_pos h2]
          · rw [if_neg h2, if_neg h2]
            exact hd g hg

theorem scanRemove_eq_none_iff [DecidableEq K] (key : K) (l : List (K × V)) :
    scanRemove key l = none ↔ key ∉ l.map Prod.fst := by
  induction l with
  | nil => simp [scanRemove]
  | cons e rest ih =>
    simp only [scanRemove, List.map_cons, List.mem_cons]
    by_cases h1 : e.1 = key
    · simp [h1]
    · rw [if_neg h1]
      rw [Option.map_eq_none']
      rw [ih]
      constructor
      · intro h2
        push_neg
        exact ⟨fun hh => h1 hh.symm, h2⟩
      · intro h2
        push_neg at h2
        exact h2.2

theorem scanRemove_some_spec [DecidableEq K] (key : K) (l l2 : List (K × V))
    (h : scanRemove key l = some l2) (hnd : (l.map Prod.fst).Nodup) :
    l2.Sublist l ∧ scanFind key l2 = none ∧
    ∀ g, g ≠ key → scanFind g l2 = scanFind g l := by
  induction l generalizing l2 with
  | nil => simp [scanRemove] at h
  | cons e rest ih =>
    simp only [List.map_cons, List.nodup_cons] at hnd
    simp only [scanRemove] at h
    by_cases h1 : e.1 = key
    · rw [if_pos h1] at h
      cases Option.some_inj.1 h
      refine ⟨List.sublist_cons_self _ _, ?_, ?_⟩
      · rw [scanFind_eq_none_iff]
        rw [← h1]
        exact hnd.1
      · intro g hg
        have h2 : ¬ (e.1 = g) := fun hh => hg (hh.symm.trans h1)
        rw [scanFind, if_neg h2]
    · rw [if_neg h1] at h
      cases hrec : scanRemove key rest with
      | none => rw [hrec] at h; exact Option.noConfusion h
      | some r2 =>
        rw [hrec] at h
        cases Option.some_inj.1 h
        obtain ⟨ha, hb, hc⟩ := ih r2 hrec hnd.2
        refine ⟨ha.cons₂ _, ?_, ?_⟩
        · show scanFind key ((e.1, e.2) :: r2) = none
          rw [scanFind, if_neg h1]
          exact hb
        · intro g hg
          show scanFind g ((e.1, e.2) :: r2) = scanFind g (e :: rest)
          rw [scanFind, scanFind]
          by_cases h2 : e.1 = g
          · rw [if_pos h2, if_pos h2]
          · rw [if_neg h2, if_neg h2]
            exact hc g hg

theorem scanFind_append_self [DecidableEq K] (key : K) (v : V) (l : List (K × V))
    (h : key ∉ l.map Prod.fst) : scanFind key (l ++ [(key, v)]) = some v := by
  induction l with
  | nil => simp [scanFind]
  | cons e rest ih =>
    simp only [List.map_cons, List.mem_cons] at h
    push_neg at h
    rw [List.cons_append, scanFind, if_neg (fun hh => h.1 hh.symm)]
    exact ih h.2

theorem scanFind_append_ne [DecidableEq K] (key g : K) (v : V) (l : List (K × V))
    (h : g ≠ key) : scanFind g (l ++ [(key, v)]) = scanFind g l := by
  induction l with
  | nil =>
    show scanFind g [(key, v)] = scanFind g []
    simp only [scanFind]
    rw [if_neg (fun hh : key = g => h hh.symm)]
  | cons e rest ih =>
    rw [List.cons_append, scanFind, scanFind]
    by_cases h2 : e.1 = g
    · rw [if_pos h2, if_pos h2]
    · rw [if_neg h2, if_neg h2]
      exact ih

theorem scanFind_modelErase_self [DecidableEq K] (key : K) (m : List (K × V)) :
    scanFind key (modelErase key m) = none := by
  induction m with
  | nil => rfl
  | cons e rest ih =>
    simp only [modelErase]
    by_cases h1 : e.1 = key
    · rw [if_pos h1]
      exact ih
    · rw [if_neg h1]
      show scanFind key ((e.1, e.2) :: modelErase key rest) = none
      rw [scanFind, if_neg h1]
      exact ih

theorem scanFind_modelErase_ne [DecidableEq K] (key g : K) (m : List (K × V))
    (h : g ≠ key) : scanFind g (modelErase key m) = scanFind g m := by
  induction m with
  | nil => rfl
  | cons e rest ih =>
    simp only [modelErase]
    by_cases h1 : e.1 = key
    · rw [if_pos h1, ih, scanFind,
        if_neg (fun hh : e.1 = g => h (hh.symm.trans h1))]
    · rw [if_neg h1]
      show scanFind g ((e.1, e.2) :: modelErase key rest) = scanFind g (e :: rest)
      rw [scanFind, scanFind]
      by_cases h2 : e.1 = g
      · rw [if_pos h2, if_pos h2]
      · rw [if_neg h2, if_neg h2]
        exact ih

/-! ### Split-loop characterization -/

theorem repointAux_length (bid z o bit j : Nat) (l : List Nat) :
    (repointAux bid z o bit j l).length = l.length := by
  induction l generalizing j with
  | nil => rfl
  | cons d rest ih =>
    simp only [repointAux, List.length_cons]
    rw [ih]

theorem repointAux_getD (bid z o bit : Nat) (l : List Nat) (j i : Nat)
    (h : i < l.length) :
    (repointAux bid z o bit j l).getD i 0 =
      if l.getD i 0 = bid then (if Nat.testBit (j + i) bit then o else z)
      else l.getD i 0 := by
  induction l generalizing j i with
  | nil => simp at h
  | cons d rest ih =>
    cases i with
    | zero => simp [repointAux]
    | succ i2 =>
      simp only [repointAux, List.getD_cons_succ]
      rw [ih (j + 1) i2 (by simpa using h)]
      have : j + 1 + i2 = j + (i2 + 1) := by omega
      rw [this]

theorem repoint_getD (bid z o bit : Nat) (l : List Nat) (i : Nat)
    (h : i < l.length) :
    (repoint bid z o bit l).getD i 0 =
      if l.getD i 0 = bid then (if Nat.testBit i bit then o else z)
      else l.getD i 0 := by
  unfold repoint
  rw [repointAux_getD bid z o bit l 0 i h]
  simp

theorem repoint_length (bid z o bit : Nat) (l : List Nat) :
    (repoint bid z o bit l).length = l.length :=
  repointAux_length bid z o bit 0 l

theorem getD_append_double (l : List Nat) (j : Nat) (h : j < 2 * l.length) :
    (l ++ l).getD j 0 = l.getD (j % l.length) 0 := by
  by_cases h1 : j < l.length
  · rw [List.getD_append _ _ _ _ h1, Nat.mod_eq_of_lt h1]
  · push_neg at h1
    have h2 : l.length ≠ 0 := by omega
    rw [List.getD_append_right _ _ _ _ h1]
    have h3 : j % l.length = j - l.length := by
      rw [Nat.mod_eq_sub_mod h1, Nat.mod_eq_of_lt (by omega)]
    rw [h3]

theorem mem_repoint (bid z o bit : Nat) (l : List Nat) (x : Nat)
    (h : x ∈ repoint bid z o bit l) : x ∈ l ∨ x = z ∨ x = o := by
  unfold repoint at h
  generalize hj : 0 = j at h
  clear hj
  induction l generalizing j with
  | nil => simp [repointAux] at h
  | cons d rest ih =>
    simp only [repointAux] at h
    rcases List.mem_cons.1 h with h2 | h2
    · by_cases h3 : d = bid
      · rw [if_pos h3] at h2
        by_cases h4 : Nat.testBit j bit
        · rw [if_pos h4] at h2
          exact Or.inr (Or.inr h2)
        · rw [if_neg h4] at h2
          exact Or.inr (Or.inl h2)
      · rw [if_neg h3] at h2
        exact Or.inl (h2 ▸ List.mem_cons_self _ _)
    · rcases ih (j + 1) h2 with h3 | h3
      · exact Or.inl (List.mem_cons_of_mem _ h3)
      · exact Or.inr h3

theorem distItems_spec [DecidableEq K] (h : K → Nat) (ld : Nat)
    (items : List (K × V)) (zb ob : Bucket K V)
    (hnd : (items.map Prod.fst).Nodup)
    (hdz : ∀ it ∈ items, it.1 ∉ zb.list.map Prod.fst)
    (hdo : ∀ it ∈ items, it.1 ∉ ob.list.map Prod.fst)
    (hlz : zb.list.length +
      (items.filter (fun it => !Nat.testBit (h it.1) (ld - 1))).length ≤ zb.size)
    (hlo : ob.list.length +
      (items.filter (fun it => Nat.testBit (h it.1) (ld - 1))).length ≤ ob.size) :
    distItems h ld items zb ob =
      ({ zb with list :=
          zb.list ++ items.filter (fun it => !Nat.testBit (h it.1) (ld - 1)) },
       { ob with list :=
          ob.list ++ items.filter (fun it => Nat.testBit (h it.1) (ld - 1)) }) := by
  induction items generalizing zb ob with
  | nil => simp [distItems]
  | cons it rest ih =>
    simp only [List.map_cons, List.nodup_cons] at hnd
    by_cases hbit : Nat.testBit (h it.1) (ld - 1)
    · have hfo : (it :: rest).filter (fun it => Nat.testBit (h it.1) (ld - 1)) =
          it :: rest.filter (fun it => Nat.testBit (h it.1) (ld - 1)) := by
        simp [List.filter_cons, hbit]
      have hfz : (it :: rest).filter (fun it => !Nat.testBit (h it.1) (ld - 1)) =
          rest.filter (fun it => !Nat.testBit (h it.1) (ld - 1)) := by
        simp [List.filter_cons, hbit]
      have hupd : scanUpdate it.1 it.2 ob.list = none :=
        (scanUpdate_eq_none_iff _ _ _).2 (hdo it (List.mem_cons_self _ _))
      have hlen : ¬ (ob.list.length = ob.size) := by
        rw [hfo] at hlo
        simp only [List.length_cons] at hlo
        omega
      have hins : ob.insertB it.1 it.2 =
          some { ob with list := ob.list ++ [(it.1, it.2)] } := by
        unfold Bucket.insertB
        rw [hupd, if_neg hlen]
      simp only [distItems, if_pos hbit, hins, Option.getD_some]
      rw [ih]
      · rw [hfz, hfo]
        refine Prod.ext ?_ ?_
        · rfl
        · show ({ ob with list := (ob.list ++ [(it.1, it.2)]) ++ _ } : Bucket K V) = _
          simp
      · exact hnd.2
      · exact fun it2 h2 => hdz it2 (List.mem_cons_of_mem _ h2)
      · intro it2 h2
        show it2.1 ∉ (ob.list ++ [(it.1, it.2)]).map Prod.fst
        simp only [List.map_append, List.mem_append]
        push_neg
        refine ⟨hdo it2 (List.mem_cons_of_mem _ h2), ?_⟩
        simp only [List.map_cons, List.map_nil, List.mem_singleton]
        intro hh
        exact hnd.1 (hh ▸ List.mem_map_of_mem _ h2)
      · rw [hfz] at hlz
        exact hlz
      · rw [hfo] at hlo
        simp only [List.length_append, List.length_cons, List.length_nil,
          List.length_cons] at hlo ⊢
        omega
    · have hfo : (it :: rest).filter (fun it => Nat.testBit (h it.1) (ld - 1)) =
          rest.filter (fun it => Nat.testBit (h it.1) (ld - 1)) := by
        simp [List.filter_cons, hbit]
      have hfz : (it :: rest).filter (fun it => !Nat.testBit (h it.1) (ld - 1)) =
          it :: rest.filter (fun it => !Nat.testBit (h it.1) (ld - 1)) := by
        simp [List.filter_cons, hbit]
      have hupd : scanUpdate it.1 it.2 zb.list = none :=
        (scanUpdate_eq_none_iff _ _ _).2 (hdz it (List.mem_cons_self _ _))
      have hlen : ¬ (zb.list.length = zb.size) := by
        rw [hfz] at hlz
        simp only [List.length_cons] at hlz
        omega
      have hins : zb.insertB it.1 it.2 =
          some { zb with list := zb.list ++ [(it.1, it.2)] } := by
        unfold Bucket.insertB
        rw [hupd, if_neg hlen]
      simp only [distItems, if_neg hbit, hins, Option.getD_some]
      rw [ih]
      · rw [hfz, hfo]
        refine Prod.ext ?_ ?_
        · show ({ zb with list := (zb.list ++ [(it.1, it.2)]) ++ _ } : Bucket K V) = _
          simp
        · rfl
      · exact hnd.2
      · intro it2 h2
        show it2.1 ∉ (zb.list ++ [(it.1, it.2)]).map Prod.fst
        simp only [List.map_append, List.mem_append]
        push_neg
        refine ⟨hdz it2 (List.mem_cons_of_mem _ h2), ?_⟩
        simp only [List.map_cons, List.map_nil, List.mem_singleton]
        intro hh
        exact hnd.1 (hh ▸ List.mem_map_of_mem _ h2)
      · exact fun it2 h2 => hdo it2 (List.mem_cons_of_mem _ h2)
      · rw [hfz] at hlz
        simp only [List.length_append, List.length_cons, List.length_nil,
          List.length_cons] at hlz ⊢
        omega
      · rw [hfo] at hlo
        exact hlo

/-! ### Table invariant -/

theorem mem_of_lookupA {β : Type} {key : Nat} {w : β} {l : List (Nat × β)}
    (h : lookupA key l = some w) : (key, w) ∈ l := by
  induction l with
  | nil => simp [lookupA] at h
  | cons e rest ih =>
    simp only [lookupA] at h
    by_cases h1 : e.1 = key
    · rw [if_pos h1] at h
      cases Option.some_inj.1 h
      rw [← h1]
      exact List.mem_cons_self _ _
    · rw [if_neg h1] at h
      exact List.mem_cons_of_mem _ (ih h)

theorem scanFind_filter_key [DecidableEq K] (key : K) (q : K → Bool)
    (l : List (K × V)) :
    scanFind key (l.filter (fun it => q it.1)) =
      if q key then scanFind key l else none := by
  induction l with
  | nil => simp [scanFind]
  | cons e rest ih =>
    simp only [List.filter_cons]
    by_cases h1 : e.1 = key
    · subst h1
      by_cases h2 : q e.1
      · rw [if_pos h2]
        show scanFind e.1 ((e.1, e.2) :: _) = _
        rw [scanFind, if_pos rfl, if_pos h2, scanFind, if_pos rfl]
      · simp only [h2, Bool.false_eq_true, if_false, ih]
    · by_cases h2 : q e.1
      · rw [if_pos h2]
        show scanFind key ((e.1, e.2) :: _) = _
        rw [scanFind, if_neg h1, ih, scanFind, if_neg h1]
      · simp only [h2, Bool.false_eq_true, if_false, ih]
        by_cases h3 : q key
        · rw [if_pos h3, if_pos h3, scanFind, if_neg h1]
        · rw [if_neg h3, if_neg h3]

/-- Invariant tying a reachable table to the reference model `m`: the
directory has `2^global_depth` slots, all referencing live buckets with
fresh-bounded ids; bucket ids are unique; every bucket is within capacity,
carries the configured capacity, has distinct keys and a local depth at most
the global depth; every key stored in a directory-reachable bucket hashes
back to a slot holding that same bucket; and a lookup through the directory
agrees with the model. -/
def EInv [DecidableEq K] (h : K → Nat) (t : EHT K V) (m : List (K × V)) : Prop :=
  t.dir.length = 2 ^ t.global_depth ∧
  (∀ bid ∈ t.dir, bid < t.next_bid ∧ (lookupA bid t.buckets).isSome) ∧
  (t.buckets.map Prod.fst).Nodup ∧
  (∀ e ∈ t.buckets, e.1 < t.next_bid) ∧
  (∀ e ∈ t.buckets, (e.2.list.map Prod.fst).Nodup ∧
      e.2.list.length ≤ t.bucket_size ∧ e.2.size = t.bucket_size ∧
      e.2.depth ≤ t.global_depth) ∧
  (∀ j, j < t.dir.length →
      ∀ kk ∈ (t.bucketOf (t.dirBid j)).list.map Prod.fst,
        t.dirBid (indexOf h t.global_depth kk) = t.dirBid j) ∧
  (∀ key, (t.bucketOf (t.dirBid (indexOf h t.global_depth key))).findB key =
      scanFind key m)

theorem EInv_init [DecidableEq K] (h : K → Nat) (bucket_size : Nat) :
    EInv h (EHT.init K V bucket_size) [] := by
  refine ⟨rfl, ?_, ?_, ?_, ?_, ?_, ?_⟩
  · intro bid hbid
    have h1 : bid = 0 := by simpa [EHT.init] using hbid
    subst h1
    exact ⟨Nat.one_pos, rfl⟩
  · show ((EHT.init K V bucket_size).buckets.map Prod.fst).Nodup
    simp [EHT.init]
  · intro e he
    have h1 : e = (0, (⟨bucket_size, 0, []⟩ : Bucket K V)) := by
      simpa [EHT.init] using he
    rw [h1]
    exact Nat.one_pos
  · intro e he
    have h1 : e = (0, (⟨bucket_size, 0, []⟩ : Bucket K V)) := by
      simpa [EHT.init] using he
    rw [h1]
    exact ⟨by simp, by simp, rfl, Nat.zero_le _⟩
  · intro j hj kk hkk
    have h1 : (EHT.init K V bucket_size).bucketOf
        ((EHT.init K V bucket_size).dirBid j) =
        (⟨bucket_size, 0, []⟩ : Bucket K V) := by
      simp only [EHT.init, EHT.dirBid, EHT.bucketOf]
      cases j <;> simp [lookupA]
    rw [h1] at hkk
    simp at hkk
  · intro key
    show ((EHT.init K V bucket_size).bucketOf
        ((EHT.init K V bucket_size).dirBid (indexOf h 0 key))).findB key = none
    have h1 : indexOf h 0 key = 0 := by simp [indexOf, Nat.mod_one]
    rw [h1]
    rfl

theorem indexOf_lt [DecidableEq K] (h : K → Nat) (d : Nat) (key : K) :
    indexOf h d key < 2 ^ d :=
  Nat.mod_lt _ (Nat.pos_pow_of_pos d (by omega))

theorem EInv_removeT [DecidableEq K] (h : K → Nat) (t : EHT K V)
    (m : List (K × V)) (key : K) (hI : EInv h t m) :
    EInv h (t.removeT h key).2 (modelErase key m) := by
  obtain ⟨hI1, hI2, hI3, hI4, hI5, hI6, hI7⟩ := hI
  have hilt : indexOf h t.global_depth key < t.dir.length := by
    rw [hI1]
    exact indexOf_lt h _ key
  have hbid_mem : t.homeBid h key ∈ t.dir := getD_mem _ _ _ hilt
  obtain ⟨hbid_lt, hbid_some⟩ := hI2 _ hbid_mem
  obtain ⟨b, hb⟩ := Option.isSome_iff_exists.1 hbid_some
  have hbof : t.bucketOf (t.homeBid h key) = b := by
    rw [EHT.bucketOf, hb, Option.getD_some]
  have hbmem : (t.homeBid h key, b) ∈ t.buckets := mem_of_lookupA hb
  obtain ⟨hbnd, hblen, hbsz, hbdep⟩ := hI5 _ hbmem
  unfold EHT.removeT
  rw [hbof]
  cases hrm : scanRemove key b.list with
  | none =>
    show EInv h t (modelErase key m)
    have hkeyn : scanFind key m = none := by
      rw [← hI7 key]
      show (t.bucketOf (t.homeBid h key)).findB key = none
      rw [hbof, Bucket.findB, scanFind_eq_none_iff]
      exact (scanRemove_eq_none_iff key b.list).1 hrm
    refine ⟨hI1, hI2, hI3, hI4, hI5, hI6, ?_⟩
    intro k2
    by_cases hk2 : k2 = key
    · subst hk2
      rw [hI7 k2, hkeyn, scanFind_modelErase_self]
    · rw [hI7 k2, scanFind_modelErase_ne _ _ _ hk2]
  | some l2 =>
    show EInv h
      { t with
        buckets := setA (t.homeBid h key) { b with list := l2 } t.buckets }
      (modelErase key m)
    obtain ⟨hsub, hnone, hother⟩ := scanRemove_some_spec key b.list l2 hrm hbnd
    have hlook2 : ∀ bid2, lookupA bid2
        (setA (t.homeBid h key) { b with list := l2 } t.buckets) =
        if bid2 = t.homeBid h key then some { b with list := l2 }
        else lookupA bid2 t.buckets := by
      intro bid2
      by_cases hb2 : bid2 = t.homeBid h key
      · subst hb2
        rw [if_pos rfl]
        exact lookupA_setA_self _ _ _ hbid_some
      · rw [if_neg hb2]
        exact lookupA_setA_ne _ _ _ _ hb2
    have hbof2 : ∀ bid2,
        (EHT.bucketOf
          { t with
            buckets := setA (t.homeBid h key) { b with list := l2 } t.buckets }
          bid2) =
        if bid2 = t.homeBid h key then { b with list := l2 }
        else t.bucketOf bid2 := by
      intro bid2
      show (lookupA bid2 (setA (t.homeBid h key) { b with list := l2 } t.buckets)).getD _ = _
      rw [hlook2 bid2]
      by_cases hb3 : bid2 = t.homeBid h key
      · rw [if_pos hb3, if_pos hb3, Option.getD_some]
      · rw [if_neg hb3, if_neg hb3]
        rfl
    refine ⟨hI1, ?_, ?_, ?_, ?_, ?_, ?_⟩
    · intro bid2 hbid2
      refine ⟨(hI2 bid2 hbid2).1, ?_⟩
      rw [hlook2 bid2]
      by_cases hb3 : bid2 = t.homeBid h key
      · rw [if_pos hb3]; rfl
      · rw [if_neg hb3]
        exact (hI2 bid2 hbid2).2
    · show ((setA (t.homeBid h key) { b with list := l2 } t.buckets).map Prod.fst).Nodup
      rw [setA_map_fst]
      exact hI3
    · intro e he
      rcases mem_setA _ _ _ _ he with h1 | h1
      · exact hI4 e h1
      · rw [h1]
        exact hbid_lt
    · intro e he
      rcases mem_setA _ _ _ _ he with h1 | h1
      · exact hI5 e h1
      · rw [h1]
        refine ⟨?_, ?_, hbsz, hbdep⟩
        · exact hbnd.sublist (hsub.map Prod.fst)
        · exact le_trans hsub.length_le hblen
    · intro j hj kk hkk
      show EHT.dirBid t _ = EHT.dirBid t j
      have hkk2 : kk ∈ ((if t.dirBid j = t.homeBid h key then { b with list := l2 }
          else t.bucketOf (t.dirBid j)) : Bucket K V).list.map Prod.fst := by
        rw [← hbof2 (t.dirBid j)]
        exact hkk
      by_cases hb3 : t.dirBid j = t.homeBid h key
      · rw [if_pos hb3] at hkk2
        have hkk3 : kk ∈ b.list.map Prod.fst := (hsub.map Prod.fst).mem hkk2
        have h6 := hI6 _ hilt kk (by
          show kk ∈ (t.bucketOf (t.homeBid h key)).list.map Prod.fst
          rw [hbof]
          exact hkk3)
        rw [h6, hb3]
        rfl
      · rw [if_neg hb3] at hkk2
        exact hI6 j (by exact hj) kk hkk2
    · intro k2
      show (EHT.bucketOf _ (t.dirBid (indexOf h t.global_depth k2))).findB k2 = _
      rw [hbof2]
      by_cases hb3 : t.dirBid (indexOf h t.global_depth k2) = t.homeBid h key
      · rw [if_pos hb3]
        by_cases hk2 : k2 = key
        · subst hk2
          show scanFind k2 l2 = _
          rw [hnone, scanFind_modelErase_self]
        · show scanFind k2 l2 = _
          rw [hother k2 hk2, scanFind_modelErase_ne _ _ _ hk2]
          have h7 := hI7 k2
          show scanFind k2 b.list = scanFind k2 m
          rw [← h7]
          show _ = (t.bucketOf (t.dirBid (indexOf h t.global_depth k2))).findB k2
          rw [hb3, hbof]
          rfl
      · rw [if_neg hb3]
        have hk2 : k2 ≠ key := by
          intro hh
          subst hh
          exact hb3 rfl
        rw [hI7 k2, scanFind_modelErase_ne _ _ _ hk2]


/-! ### Doubling step -/

theorem EInv_double [DecidableEq K] (h : K → Nat) (t : EHT K V) (key : K)
    (m : List (K × V)) (hI : EInv h t m) :
    EInv h (doubleIfNeeded h t key) m ∧
    (doubleIfNeeded h t key).buckets = t.buckets ∧
    (∀ key2 : K, (doubleIfNeeded h t key).homeBid h key2 = t.homeBid h key2) ∧
    t.global_depth ≤ (doubleIfNeeded h t key).global_depth ∧
    (doubleIfNeeded h t key).num_buckets = t.num_buckets ∧
    (doubleIfNeeded h t key).bucket_size = t.bucket_size ∧
    (doubleIfNeeded h t key).next_bid = t.next_bid ∧
    (t.bucketOf (t.homeBid h key)).depth < (doubleIfNeeded h t key).global_depth := by
  obtain ⟨hI1, hI2, hI3, hI4, hI5, hI6, hI7⟩ := hI
  have hilt : indexOf h t.global_depth key < t.dir.length := by
    rw [hI1]
    exact indexOf_lt h _ key
  have hbid_mem : t.homeBid h key ∈ t.dir := getD_mem _ _ _ hilt
  obtain ⟨hbid_lt, hbid_some⟩ := hI2 _ hbid_mem
  obtain ⟨b, hb⟩ := Option.isSome_iff_exists.1 hbid_some
  have hbof : t.bucketOf (t.homeBid h key) = b := by
    rw [EHT.bucketOf, hb, Option.getD_some]
  have hbdep : b.depth ≤ t.global_depth := (hI5 _ (mem_of_lookupA hb)).2.2.2
  unfold doubleIfNeeded
  by_cases hc : (t.bucketOf (t.homeBid h key)).depth = t.global_depth
  · rw [if_pos hc]
    have hlen2 : (t.dir ++ t.dir).length = 2 ^ (t.global_depth + 1) := by
      simp only [List.length_append, hI1]
      rw [pow_succ]
      omega
    have hdirD : ∀ j, j < 2 ^ (t.global_depth + 1) →
        (t.dir ++ t.dir).getD j 0 = t.dir.getD (j % 2 ^ t.global_depth) 0 := by
      intro j hj
      have h2 : j < 2 * t.dir.length := by
        rw [hI1]
        rw [pow_succ] at hj
        omega
      rw [getD_append_double t.dir j h2, hI1]
    have hhome : ∀ key2 : K,
        ({ t with
            global_depth := t.global_depth + 1
            dir := t.dir ++ t.dir } : EHT K V).homeBid h key2 = t.homeBid h key2 := by
      intro key2
      show (t.dir ++ t.dir).getD (h key2 % 2 ^ (t.global_depth + 1)) 0 =
        t.dir.getD (h key2 % 2 ^ t.global_depth) 0
      rw [hdirD _ (Nat.mod_lt _ (Nat.pos_pow_of_pos _ (by omega)))]
      rw [Nat.mod_mod_of_dvd _ (pow_dvd_pow 2 (Nat.le_succ _))]
    refine ⟨⟨hlen2, ?_, hI3, hI4, ?_, ?_, ?_⟩, rfl, hhome, Nat.le_succ _, rfl, rfl, rfl, ?_⟩
    · intro bid hbid
      simp only [List.mem_append] at hbid
      rcases hbid with hbid | hbid <;> exact hI2 bid hbid
    · intro e he
      obtain ⟨ha, hb2, hc2, hd⟩ := hI5 e he
      exact ⟨ha, hb2, hc2, le_trans hd (Nat.le_succ _)⟩
    · intro j hj kk hkk
      show ({ t with
          global_depth := t.global_depth + 1
          dir := t.dir ++ t.dir } : EHT K V).homeBid h kk = _
      rw [hhome kk]
      simp only [List.length_append] at hj
      have hj2 : j < 2 ^ (t.global_depth + 1) := by
        rw [← hlen2]
        simp only [List.length_append]
        exact hj
      have hdj : EHT.dirBid ({ t with
          global_depth := t.global_depth + 1
          dir := t.dir ++ t.dir } : EHT K V) j = t.dirBid (j % 2 ^ t.global_depth) :=
        hdirD j hj2
      rw [hdj] at hkk ⊢
      have hjm : j % 2 ^ t.global_depth < t.dir.length := by
        rw [hI1]
        exact Nat.mod_lt _ (Nat.pos_pow_of_pos _ (by omega))
      exact hI6 _ hjm kk hkk
    · intro k2
      show (EHT.bucketOf _ (({ t with
          global_depth := t.global_depth + 1
          dir := t.dir ++ t.dir } : EHT K V).homeBid h k2)).findB k2 = _
      rw [hhome k2]
      exact hI7 k2
    · rw [hc]
      exact Nat.lt_succ_self _
  · rw [if_neg hc]
    rw [hbof] at hc
    refine ⟨⟨hI1, hI2, hI3, hI4, hI5, hI6, hI7⟩, rfl, fun key2 => rfl,
      le_refl _, rfl, rfl, rfl, ?_⟩
    rw [hbof]
    omega


/-! ### Split step -/

theorem EInv_split_aux [DecidableEq K] (h : K → Nat) (t1 : EHT K V) (bid : Nat)
    (b : Bucket K V) (m : List (K × V)) (hI : EInv h t1 m) (hmem : bid ∈ t1.dir)
    (hb : lookupA bid t1.buckets = some b)
    (hdeplt : b.depth < t1.global_depth)
    (t2 : EHT K V)
    (hgd : t2.global_depth = t1.global_depth)
    (hbs : t2.bucket_size = t1.bucket_size)
    (hnb : t2.next_bid = t1.next_bid + 2)
    (hdir : t2.dir = repoint bid t1.next_bid (t1.next_bid + 1) b.depth t1.dir)
    (hbuckets : t2.buckets =
      (t1.next_bid, ⟨t1.bucket_size, b.depth + 1,
        b.list.filter (fun it => !Nat.testBit (h it.1) b.depth)⟩) ::
      (t1.next_bid + 1, ⟨t1.bucket_size, b.depth + 1,
        b.list.filter (fun it => Nat.testBit (h it.1) b.depth)⟩) ::
      setA bid { b with depth := b.depth + 1 } t1.buckets) :
    EInv h t2 m := by
  obtain ⟨hI1, hI2, hI3, hI4, hI5, hI6, hI7⟩ := hI
  obtain ⟨hbid_lt, hbid_some⟩ := hI2 bid hmem
  have hbof : t1.bucketOf bid = b := by
    rw [EHT.bucketOf, hb, Option.getD_some]
  obtain ⟨hbnd, hblen, hbsz, hbdep⟩ := hI5 _ (mem_of_lookupA hb)
  have hlookz : lookupA t1.next_bid t2.buckets =
      some ⟨t1.bucket_size, b.depth + 1,
        b.list.filter (fun it => !Nat.testBit (h it.1) b.depth)⟩ := by
    rw [hbuckets, lookupA, if_pos rfl]
  have hlooko : lookupA (t1.next_bid + 1) t2.buckets =
      some ⟨t1.bucket_size, b.depth + 1,
        b.list.filter (fun it => Nat.testBit (h it.1) b.depth)⟩ := by
    rw [hbuckets, lookupA, if_neg (by omega), lookupA, if_pos rfl]
  have hlookold : ∀ bid2, bid2 < t1.next_bid →
      lookupA bid2 t2.buckets =
      (if bid2 = bid then some { b with depth := b.depth + 1 }
       else lookupA bid2 t1.buckets) := by
    intro bid2 h2
    rw [hbuckets, lookupA, if_neg (by omega), lookupA, if_neg (by omega)]
    by_cases h3 : bid2 = bid
    · subst h3
      rw [if_pos rfl]
      exact lookupA_setA_self _ _ _ hbid_some
    · rw [if_neg h3]
      exact lookupA_setA_ne _ _ _ _ h3
  have hdirb : ∀ j, j < t1.dir.length →
      t2.dir.getD j 0 =
      (if t1.dir.getD j 0 = bid
       then (if Nat.testBit j b.depth then t1.next_bid + 1 else t1.next_bid)
       else t1.dir.getD j 0) := by
    intro j hj
    rw [hdir]
    exact repoint_getD bid _ _ _ t1.dir j hj
  have hdlen : t2.dir.length = t1.dir.length := by
    rw [hdir, repoint_length]
  have htb : ∀ k2 : K, Nat.testBit (indexOf h t1.global_depth k2) b.depth =
      Nat.testBit (h k2) b.depth := by
    intro k2
    rw [indexOf, Nat.testBit_mod_two_pow]
    simp [hdeplt]
  have hslot_lt : ∀ j, j < t1.dir.length → t1.dir.getD j 0 < t1.next_bid := by
    intro j hj
    exact (hI2 _ (getD_mem _ _ _ hj)).1
  refine ⟨?_, ?_, ?_, ?_, ?_, ?_, ?_⟩
  · rw [hdlen, hgd]
    exact hI1
  · intro bid2 hbid2
    rw [hdir] at hbid2
    rw [hnb]
    rcases mem_repoint _ _ _ _ _ _ hbid2 with h2 | h2 | h2
    · obtain ⟨h3, h4⟩ := hI2 bid2 h2
      refine ⟨by omega, ?_⟩
      rw [hlookold bid2 h3]
      by_cases h5 : bid2 = bid
      · rw [if_pos h5]; rfl
      · rw [if_neg h5]; exact h4
    · subst h2
      exact ⟨by omega, by rw [hlookz]; rfl⟩
    · subst h2
      exact ⟨by omega, by rw [hlooko]; rfl⟩
  · rw [hbuckets]
    simp only [List.map_cons, List.nodup_cons, setA_map_fst]
    refine ⟨?_, ?_, hI3⟩
    · intro hmem2
      rcases List.mem_cons.1 hmem2 with h5 | h5
      · omega
      · rcases List.mem_map.1 h5 with ⟨e, he, hee⟩
        have := hI4 e he
        omega
    · intro hmem2
      rcases List.mem_map.1 hmem2 with ⟨e, he, hee⟩
      have := hI4 e he
      omega
  · intro e he
    rw [hbuckets] at he
    rw [hnb]
    rcases List.mem_cons.1 he with h2 | h2
    · rw [h2]
      show t1.next_bid < t1.next_bid + 2
      omega
    · rcases List.mem_cons.1 h2 with h3 | h3
      · rw [h3]
        show t1.next_bid + 1 < t1.next_bid + 2
        omega
      · rcases mem_setA _ _ _ _ h3 with h4 | h4
        · have := hI4 e h4
          omega
        · rw [h4]
          show bid < t1.next_bid + 2
          omega
  · intro e he
    rw [hbuckets] at he
    rw [hbs, hgd]
    rcases List.mem_cons.1 he with h2 | h2
    · rw [h2]
      refine ⟨?_, ?_, rfl, ?_⟩
      · exact hbnd.sublist ((List.filter_sublist _).map Prod.fst)
      · exact le_trans (List.length_filter_le _ _) hblen
      · show b.depth + 1 ≤ t1.global_depth
        omega
    · rcases List.mem_cons.1 h2 with h3 | h3
      · rw [h3]
        refine ⟨?_, ?_, rfl, ?_⟩
        · exact hbnd.sublist ((List.filter_sublist _).map Prod.fst)
        · exact le_trans (List.length_filter_le _ _) hblen
        · show b.depth + 1 ≤ t1.global_depth
          omega
      · rcases mem_setA _ _ _ _ h3 with h4 | h4
        · exact hI5 e h4
        · rw [h4]
          refine ⟨hbnd, hblen, hbsz, ?_⟩
          show b.depth + 1 ≤ t1.global_depth
          omega
  · intro j hj kk hkk
    have hj1 : j < t1.dir.length := by rw [← hdlen]; exact hj
    have hidxlt : indexOf h t1.global_depth kk < t1.dir.length := by
      rw [hI1]; exact indexOf_lt h _ kk
    have hkk2 : kk ∈
        ((lookupA (t2.dir.getD j 0) t2.buckets).getD
          (⟨0, 0, []⟩ : Bucket K V)).list.map Prod.fst := hkk
    rw [hdirb j hj1] at hkk2
    show t2.dir.getD (indexOf h t2.global_depth kk) 0 = t2.dir.getD j 0
    rw [hgd, hdirb _ hidxlt, hdirb j hj1]
    by_cases hcase : t1.dir.getD j 0 = bid
    · rw [if_pos hcase] at hkk2 ⊢
      by_cases htbj : Nat.testBit j b.depth
      · rw [if_pos htbj] at hkk2 ⊢
        rw [hlooko, Option.getD_some] at hkk2
        rcases List.mem_map.1 hkk2 with ⟨it, hit, hitk⟩
        have hitmem := List.mem_filter.1 hit
        have hkold : kk ∈ (t1.bucketOf (t1.dirBid j)).list.map Prod.fst := by
          show kk ∈ (t1.bucketOf (t1.dir.getD j 0)).list.map Prod.fst
          rw [hcase, hbof]
          exact hitk ▸ List.mem_map_of_mem _ hitmem.1
        have hhome := hI6 j hj1 kk hkold
        have hhome2 : t1.dir.getD (indexOf h t1.global_depth kk) 0 = bid := by
          show t1.dirBid _ = bid
          rw [hhome]
          exact hcase
        have hbit : Nat.testBit (h kk) b.depth = true := by
          rw [← hitk]
          simpa using hitmem.2
        rw [if_pos hhome2, htb kk, hbit]
        rfl
      · rw [if_neg htbj] at hkk2 ⊢
        rw [hlookz, Option.getD_some] at hkk2
        rcases List.mem_map.1 hkk2 with ⟨it, hit, hitk⟩
        have hitmem := List.mem_filter.1 hit
        have hkold : kk ∈ (t1.bucketOf (t1.dirBid j)).list.map Prod.fst := by
          show kk ∈ (t1.bucketOf (t1.dir.getD j 0)).list.map Prod.fst
          rw [hcase, hbof]
          exact hitk ▸ List.mem_map_of_mem _ hitmem.1
        have hhome := hI6 j hj1 kk hkold
        have hhome2 : t1.dir.getD (indexOf h t1.global_depth kk) 0 = bid := by
          show t1.dirBid _ = bid
          rw [hhome]
          exact hcase
        have hbit : Nat.testBit (h kk) b.depth = false := by
          rw [← hitk]
          simpa using hitmem.2
        rw [if_pos hhome2, htb kk, hbit]
        rfl
    · rw [if_neg hcase] at hkk2 ⊢
      have hwlt : t1.dir.getD j 0 < t1.next_bid := hslot_lt j hj1
      rw [hlookold _ hwlt, if_neg hcase] at hkk2
      have hhome : t1.dirBid (indexOf h t1.global_depth kk) = t1.dirBid j :=
        hI6 j hj1 kk hkk2
      have hnotbid : ¬ (t1.dir.getD (indexOf h t1.global_depth kk) 0 = bid) := by
        intro hcontra
        apply hcase
        show t1.dirBid j = bid
        rw [← hhome]
        exact hcontra
      rw [if_neg hnotbid]
      exact hhome
  · intro k2
    have hi2lt : indexOf h t1.global_depth k2 < t1.dir.length := by
      rw [hI1]; exact indexOf_lt h _ k2
    show ((lookupA (t2.dir.getD (indexOf h t2.global_depth k2) 0)
        t2.buckets).getD (⟨0, 0, []⟩ : Bucket K V)).findB k2 = scanFind k2 m
    rw [hgd, hdirb _ hi2lt]
    by_cases hcase : t1.dir.getD (indexOf h t1.global_depth k2) 0 = bid
    · rw [if_pos hcase]
      have hold : scanFind k2 b.list = scanFind k2 m := by
        have h7 := hI7 k2
        rw [show t1.dirBid (indexOf h t1.global_depth k2) = bid from hcase,
          hbof] at h7
        exact h7
      by_cases hv : Nat.testBit (h k2) b.depth
      · rw [htb k2, if_pos hv, hlooko, Option.getD_some]
        have hf : scanFind k2
            (b.list.filter (fun it => Nat.testBit (h it.1) b.depth)) =
            if Nat.testBit (h k2) b.depth then scanFind k2 b.list else none :=
          scanFind_filter_key k2 (fun kk2 => Nat.testBit (h kk2) b.depth) b.list
        rw [if_pos hv] at hf
        exact hf.trans hold
      · rw [htb k2, if_neg hv, hlookz, Option.getD_some]
        have hv2 : Nat.testBit (h k2) b.depth = false := by
          simpa using hv
        have hf : scanFind k2
            (b.list.filter (fun it => !Nat.testBit (h it.1) b.depth)) =
            if !Nat.testBit (h k2) b.depth then scanFind k2 b.list else none :=
          scanFind_filter_key k2 (fun kk2 => !Nat.testBit (h kk2) b.depth) b.list
        have hq : (!Nat.testBit (h k2) b.depth) = true := by
          rw [hv2]
          rfl
        rw [if_pos hq] at hf
        exact hf.trans hold
    · rw [if_neg hcase]
      have hwlt : t1.dir.getD (indexOf h t1.global_depth k2) 0 < t1.next_bid :=
        hslot_lt _ hi2lt
      rw [hlookold _ hwlt, if_neg hcase]
      exact hI7 k2

/-- Splitting a full bucket whose local depth is strictly below the global
depth preserves the invariant. -/
theorem EInv_splitBucket [DecidableEq K] (h : K → Nat) (t1 : EHT K V) (bid : Nat)
    (m : List (K × V)) (hI : EInv h t1 m) (hmem : bid ∈ t1.dir)
    (hdeplt : (t1.bucketOf bid).depth < t1.global_depth) :
    EInv h (splitBucket h t1 bid) m := by
  obtain ⟨b, hb⟩ := Option.isSome_iff_exists.1 ((hI.2.1 bid hmem).2)
  have hbof : t1.bucketOf bid = b := by
    rw [EHT.bucketOf, hb, Option.getD_some]
  rw [hbof] at hdeplt
  have hcancel : b.depth + 1 - 1 = b.depth := rfl
  have hdist := distItems_spec h (b.depth + 1) b.list
    ⟨t1.bucket_size, b.depth + 1, []⟩ ⟨t1.bucket_size, b.depth + 1, []⟩
    ((hI.2.2.2.2.1 _ (mem_of_lookupA hb)).1) (by simp) (by simp)
    (by
      show (0:Nat) + _ ≤ t1.bucket_size
      rw [Nat.zero_add]
      exact le_trans (List.length_filter_le _ _)
        (hI.2.2.2.2.1 _ (mem_of_lookupA hb)).2.1)
    (by
      show (0:Nat) + _ ≤ t1.bucket_size
      rw [Nat.zero_add]
      exact le_trans (List.length_filter_le _ _)
        (hI.2.2.2.2.1 _ (mem_of_lookupA hb)).2.1)
  rw [hcancel] at hdist
  have hts : splitBucket h t1 bid =
      { t1 with
        dir := repoint bid t1.next_bid (t1.next_bid + 1) b.depth t1.dir
        buckets :=
          (t1.next_bid, ⟨t1.bucket_size, b.depth + 1,
            b.list.filter (fun it => !Nat.testBit (h it.1) b.depth)⟩) ::
          (t1.next_bid + 1, ⟨t1.bucket_size, b.depth + 1,
            b.list.filter (fun it => Nat.testBit (h it.1) b.depth)⟩) ::
          setA bid { b with depth := b.depth + 1 } t1.buckets
        num_buckets := t1.num_buckets + 1
        next_bid := t1.next_bid + 2 } := by
    unfold splitBucket
    rw [hbof]
    rw [hdist]
    rfl
  exact EInv_split_aux h t1 bid b m hI hmem hb hdeplt _
    (by rw [hts]) (by rw [hts]) (by rw [hts]) (by rw [hts]) (by rw [hts])


/-! ### Successful-insert step -/

theorem EInv_insert_success [DecidableEq K] (h : K → Nat) (t : EHT K V)
    (m : List (K × V)) (key : K) (v : V) (b2 : Bucket K V) (hI : EInv h t m)
    (hins : (t.bucketOf (t.homeBid h key)).insertB key v = some b2) :
    EInv h { t with buckets := setA (t.homeBid h key) b2 t.buckets }
      ((key, v) :: modelErase key m) := by
  obtain ⟨hI1, hI2, hI3, hI4, hI5, hI6, hI7⟩ := hI
  have hilt : indexOf h t.global_depth key < t.dir.length := by
    rw [hI1]
    exact indexOf_lt h _ key
  have hbid_mem : t.homeBid h key ∈ t.dir := getD_mem _ _ _ hilt
  obtain ⟨hbid_lt, hbid_some⟩ := hI2 _ hbid_mem
  obtain ⟨b, hb⟩ := Option.isSome_iff_exists.1 hbid_some
  have hbof : t.bucketOf (t.homeBid h key) = b := by
    rw [EHT.bucketOf, hb, Option.getD_some]
  have hbmem : (t.homeBid h key, b) ∈ t.buckets := mem_of_lookupA hb
  obtain ⟨hbnd, hblen, hbsz, hbdep⟩ := hI5 _ hbmem
  rw [hbof] at hins
  unfold Bucket.insertB at hins
  have hfacts : b2.size = b.size ∧ b2.depth = b.depth ∧
      (b2.list.map Prod.fst).Nodup ∧ b2.list.length ≤ t.bucket_size ∧
      scanFind key b2.list = some v ∧
      (∀ g, g ≠ key → scanFind g b2.list = scanFind g b.list) ∧
      (∀ kk ∈ b2.list.map Prod.fst, kk ∈ b.list.map Prod.fst ∨ kk = key) := by
    cases hup : scanUpdate key v b.list with
    | some l2 =>
      rw [hup] at hins
      cases Option.some_inj.1 hins
      obtain ⟨hkeys, hlen, hfind, hother⟩ := scanUpdate_some_spec key v b.list l2 hup
      refine ⟨rfl, rfl, ?_, ?_, hfind, hother, ?_⟩
      · show (l2.map Prod.fst).Nodup
        rw [hkeys]
        exact hbnd
      · show l2.length ≤ t.bucket_size
        rw [hlen]
        exact hblen
      · intro kk hkk
        exact Or.inl (by rw [← hkeys]; exact hkk)
    | none =>
      rw [hup] at hins
      have hni : key ∉ b.list.map Prod.fst := (scanUpdate_eq_none_iff key v b.list).1 hup
      by_cases hfull : b.list.length = b.size
      · rw [if_pos hfull] at hins
        exact Option.noConfusion hins
      · rw [if_neg hfull] at hins
        cases Option.some_inj.1 hins
        refine ⟨rfl, rfl, ?_, ?_, ?_, ?_, ?_⟩
        · show ((b.list ++ [(key, v)]).map Prod.fst).Nodup
          rw [List.map_append]
          simp only [List.map_cons, List.map_nil]
          rw [List.nodup_append]
          refine ⟨hbnd, List.nodup_singleton _, ?_⟩
          intro kk hkk hkk2
          rw [List.mem_singleton] at hkk2
          subst hkk2
          exact hni hkk
        · show (b.list ++ [(key, v)]).length ≤ t.bucket_size
          have hblen2 : b.list.length ≤ t.bucket_size := hblen
          have hbsz2 : b.size = t.bucket_size := hbsz
          rw [List.length_append, List.length_singleton]
          have : b.list.length < b.size := Nat.lt_of_le_of_ne (hbsz2 ▸ hblen2) hfull
          omega
        · exact scanFind_append_self key v b.list hni
        · intro g hg
          exact scanFind_append_ne key g v b.list hg
        · intro kk hkk
          rw [List.map_append] at hkk
          rcases List.mem_append.1 hkk with h2 | h2
          · exact Or.inl h2
          · simp only [List.map_cons, List.map_nil, List.mem_singleton] at h2
            exact Or.inr h2
  obtain ⟨hF1, hF2, hF3, hF4, hF5, hF6, hF7⟩ := hfacts
  have hlook2 : ∀ bid2, lookupA bid2 (setA (t.homeBid h key) b2 t.buckets) =
      if bid2 = t.homeBid h key then some b2
      else lookupA bid2 t.buckets := by
    intro bid2
    by_cases hb2 : bid2 = t.homeBid h key
    · subst hb2
      rw [if_pos rfl]
      exact lookupA_setA_self _ _ _ hbid_some
    · rw [if_neg hb2]
      exact lookupA_setA_ne _ _ _ _ hb2
  have hbof2 : ∀ bid2,
      (EHT.bucketOf { t with buckets := setA (t.homeBid h key) b2 t.buckets }
        bid2) =
      if bid2 = t.homeBid h key then b2 else t.bucketOf bid2 := by
    intro bid2
    show (lookupA bid2 (setA (t.homeBid h key) b2 t.buckets)).getD _ = _
    rw [hlook2 bid2]
    by_cases hb3 : bid2 = t.homeBid h key
    · rw [if_pos hb3, if_pos hb3, Option.getD_some]
    · rw [if_neg hb3, if_neg hb3]
      rfl
  refine ⟨hI1, ?_, ?_, ?_, ?_, ?_, ?_⟩
  · intro bid2 hbid2
    refine ⟨(hI2 bid2 hbid2).1, ?_⟩
    rw [hlook2 bid2]
    by_cases hb3 : bid2 = t.homeBid h key
    · rw [if_pos hb3]; rfl
    · rw [if_neg hb3]
      exact (hI2 bid2 hbid2).2
  · show ((setA (t.homeBid h key) b2 t.buckets).map Prod.fst).Nodup
    rw [setA_map_fst]
    exact hI3
  · intro e he
    rcases mem_setA _ _ _ _ he with h1 | h1
    · exact hI4 e h1
    · rw [h1]
      exact hbid_lt
  · intro e he
    rcases mem_setA _ _ _ _ he with h1 | h1
    · exact hI5 e h1
    · rw [h1]
      exact ⟨hF3, hF4, hF1.trans hbsz, hF2 ▸ hbdep⟩
  · intro j hj kk hkk
    show EHT.dirBid t _ = EHT.dirBid t j
    have hkk2 : kk ∈ ((if t.dirBid j = t.homeBid h key then b2
        else t.bucketOf (t.dirBid j)) : Bucket K V).list.map Prod.fst := by
      rw [← hbof2 (t.dirBid j)]
      exact hkk
    by_cases hb3 : t.dirBid j = t.homeBid h key
    · rw [if_pos hb3] at hkk2
      rcases hF7 kk hkk2 with h2 | h2
      · have h6 := hI6 _ hilt kk (by
          show kk ∈ (t.bucketOf (t.homeBid h key)).list.map Prod.fst
          rw [hbof]
          exact h2)
        rw [h6, hb3]
        rfl
      · subst h2
        exact hb3.symm
    · rw [if_neg hb3] at hkk2
      exact hI6 j (by exact hj) kk hkk2
  · intro k2
    show (EHT.bucketOf _ (t.dirBid (indexOf h t.global_depth k2))).findB k2 = _
    rw [hbof2]
    by_cases hb3 : t.dirBid (indexOf h t.global_depth k2) = t.homeBid h key
    · rw [if_pos hb3]
      by_cases hk2 : k2 = key
      · subst hk2
        show scanFind k2 b2.list = scanFind k2 ((k2, v) :: modelErase k2 m)
        rw [hF5, scanFind, if_pos rfl]
      · show scanFind k2 b2.list = scanFind k2 ((key, v) :: modelErase key m)
        rw [hF6 k2 hk2, scanFind,
          if_neg (fun hh : key = k2 => hk2 hh.symm),
          scanFind_modelErase_ne _ _ _ hk2]
        have h7 := hI7 k2
        show scanFind k2 b.list = scanFind k2 m
        rw [← h7]
        show _ = (t.bucketOf (t.dirBid (indexOf h t.global_depth k2))).findB k2
        rw [hb3, hbof]
        rfl
    · rw [if_neg hb3]
      have hk2 : k2 ≠ key := by
        intro hh
        subst hh
        exact hb3 rfl
      show (t.bucketOf (t.dirBid (indexOf h t.global_depth k2))).findB k2 =
        scanFind k2 ((key, v) :: modelErase key m)
      rw [hI7 k2, scanFind, if_neg (fun hh : key = k2 => hk2 hh.symm),
        scanFind_modelErase_ne _ _ _ hk2]


/-! ### The insert loop -/

theorem EInv_insertT [DecidableEq K] (h : K → Nat) (fuel : Nat) (t : EHT K V)
    (m : List (K × V)) (key : K) (v : V) (t2 : EHT K V) (hI : EInv h t m)
    (hrun : EHT.insertT h fuel t key v = some t2) :
    EInv h t2 ((key, v) :: modelErase key m) ∧
    t.global_depth ≤ t2.global_depth ∧ t.num_buckets ≤ t2.num_buckets ∧
    t2.bucket_size = t.bucket_size := by
  induction fuel generalizing t with
  | zero => simp [EHT.insertT] at hrun
  | succ fuel ih =>
    rw [EHT.insertT] at hrun
    cases hins : (t.bucketOf (t.homeBid h key)).insertB key v with
    | some b2 =>
      rw [hins] at hrun
      have hrun2 : some { t with buckets := setA (t.homeBid h key) b2 t.buckets } =
          some t2 := hrun
      cases Option.some_inj.1 hrun2
      refine ⟨EInv_insert_success h t m key v b2 hI hins, ?_, ?_, ?_⟩
      · show t.global_depth ≤ t.global_depth
        exact Nat.le.refl
      · show t.num_buckets ≤ t.num_buckets
        exact Nat.le.refl
      · rfl
    | none =>
      rw [hins] at hrun
      have hrun2 : EHT.insertT h fuel
          (splitBucket h (doubleIfNeeded h t key) (t.homeBid h key)) key v =
          some t2 := hrun
      obtain ⟨hItd, hbuck, hhome, hgdle, hnbeq, hbseq, hnexteq, hdepstrict⟩ :=
        EInv_double h t key m hI
      have hilt : indexOf h t.global_depth key < t.dir.length := by
        rw [hI.1]
        exact indexOf_lt h _ key
      have hmem_t : t.homeBid h key ∈ t.dir := getD_mem _ _ _ hilt
      have hmem_td : t.homeBid h key ∈ (doubleIfNeeded h t key).dir := by
        unfold doubleIfNeeded
        by_cases hc : (t.bucketOf (t.homeBid h key)).depth = t.global_depth
        · rw [if_pos hc]
          exact List.mem_append_left _ hmem_t
        · rw [if_neg hc]
          exact hmem_t
      have hbeq : (doubleIfNeeded h t key).bucketOf (t.homeBid h key) =
          t.bucketOf (t.homeBid h key) := by
        show (lookupA _ (doubleIfNeeded h t key).buckets).getD _ = _
        rw [hbuck]
        rfl
      have hdeplt_td : ((doubleIfNeeded h t key).bucketOf (t.homeBid h key)).depth <
          (doubleIfNeeded h t key).global_depth := by
        rw [hbeq]
        exact hdepstrict
      have hIsplit : EInv h
          (splitBucket h (doubleIfNeeded h t key) (t.homeBid h key)) m :=
        EInv_splitBucket h (doubleIfNeeded h t key) (t.homeBid h key) m hItd
          hmem_td hdeplt_td
      obtain ⟨hres1, hres2, hres3, hres4⟩ := ih _ hIsplit hrun2
      refine ⟨hres1, ?_, ?_, ?_⟩
      · exact le_trans hgdle hres2
      · refine le_trans ?_ hres3
        show t.num_buckets ≤ (doubleIfNeeded h t key).num_buckets + 1
        omega
      · rw [hres4]
        show (doubleIfNeeded h t key).bucket_size = t.bucket_size
        exact hbseq


/-! ### Whole call sequences -/

theorem EInv_estep [DecidableEq K] (h : K → Nat) (fuel : Nat) (t t2 : EHT K V)
    (m : List (K × V)) (op : EOp K V) (hI : EInv h t m)
    (hrun : estep h fuel t op = some t2) :
    EInv h t2 (modelStep m op) ∧ t.global_depth ≤ t2.global_depth ∧
    t.num_buckets ≤ t2.num_buckets ∧ t2.bucket_size = t.bucket_size := by
  cases op with
  | insert key v =>
    exact EInv_insertT h fuel t m key v t2 hI hrun
  | remove key =>
    have hrun2 : some (t.removeT h key).2 = some t2 := hrun
    cases Option.some_inj.1 hrun2
    have hconf : (t.removeT h key).2.global_depth = t.global_depth ∧
        (t.removeT h key).2.num_buckets = t.num_buckets ∧
        (t.removeT h key).2.bucket_size = t.bucket_size := by
      unfold EHT.removeT
      cases scanRemove key (t.bucketOf (t.homeBid h key)).list with
      | none => exact ⟨rfl, rfl, rfl⟩
      | some l2 => exact ⟨rfl, rfl, rfl⟩
    refine ⟨EInv_removeT h t m key hI, ?_, ?_, hconf.2.2⟩
    · rw [hconf.1]
    · rw [hconf.2.1]
  | find key =>
    have hrun2 : some t = some t2 := hrun
    cases Option.some_inj.1 hrun2
    exact ⟨hI, Nat.le.refl, Nat.le.refl, rfl⟩

theorem EInv_runEFrom [DecidableEq K] (h : K → Nat) (fuel : Nat) (t t2 : EHT K V)
    (m : List (K × V)) (ops : List (EOp K V)) (hI : EInv h t m)
    (hrun : runEFrom h fuel t ops = some t2) :
    EInv h t2 (modelRun m ops) ∧ t.global_depth ≤ t2.global_depth ∧
    t.num_buckets ≤ t2.num_buckets ∧ t2.bucket_size = t.bucket_size := by
  induction ops generalizing t m with
  | nil =>
    have hrun2 : some t = some t2 := hrun
    cases Option.some_inj.1 hrun2
    exact ⟨hI, Nat.le.refl, Nat.le.refl, rfl⟩
  | cons op ops ih =>
    rw [runEFrom] at hrun
    cases hstep : estep h fuel t op with
    | none =>
      rw [hstep] at hrun
      exact Option.noConfusion hrun
    | some t1 =>
      rw [hstep] at hrun
      have hrun2 : runEFrom h fuel t1 ops = some t2 := hrun
      obtain ⟨h1, h2, h3, h4⟩ := EInv_estep h fuel t t1 m op hI hstep
      obtain ⟨g1, g2, g3, g4⟩ := ih t1 (modelStep m op) h1 hrun2
      exact ⟨g1, le_trans h2 g2, le_trans h3 g3, g4.trans h4⟩

theorem EInv_runEHT [DecidableEq K] (h : K → Nat) (bucket_size fuel : Nat)
    (ops : List (EOp K V)) (t2 : EHT K V)
    (hrun : runEHT h bucket_size fuel ops = some t2) :
    EInv h t2 (modelOf ops) ∧ t2.bucket_size = bucket_size := by
  obtain ⟨g1, _, _, g4⟩ := EInv_runEFrom h fuel (EHT.init K V bucket_size) t2 []
    ops (EInv_init h bucket_size) hrun
  exact ⟨g1, g4⟩


theorem runEFrom_append [DecidableEq K] (h : K → Nat) (fuel : Nat) (t : EHT K V)
    (ops1 ops2 : List (EOp K V)) :
    runEFrom h fuel t (ops1 ++ ops2) =
      (match runEFrom h fuel t ops1 with
       | none => none
       | some t1 => runEFrom h fuel t1 ops2) := by
  induction ops1 generalizing t with
  | nil => rfl
  | cons op ops ih =>
    show runEFrom h fuel t (op :: (ops ++ ops2)) = _
    rw [runEFrom]
    cases hstep : estep h fuel t op with
    | none =>
      show (none : Option (EHT K V)) =
        (match runEFrom h fuel t (op :: ops) with
         | none => none
         | some t1 => runEFrom h fuel t1 ops2)
      rw [runEFrom, hstep]
    | some t1 =>
      show runEFrom h fuel t1 (ops ++ ops2) =
        (match runEFrom h fuel t (op :: ops) with
         | none => none
         | some t3 => runEFrom h fuel t3 ops2)
      rw [runEFrom, hstep, ih t1]


/-! ### Claim C5 -/

/-- **C5**: for every sequence of `Insert` / `Remove` / `Find` calls on the
extendible hash table (each insert completing within its fuel), `Find`
returns exactly the most recent surviving binding of each key: the value of
the latest `Insert` not followed by a `Remove` of that key, and `none` after
a `Remove` until the key is inserted again — this is `scanFind` over the
reference model, where an insert prepends its binding after deleting older
ones.  Moreover a duplicate-key insert updates in place: every bucket holds
at most one entry per key. -/
theorem eht_find_most_recent [DecidableEq K] (h : K → Nat)
    (bucket_size fuel : Nat) (ops : List (EOp K V)) (t2 : EHT K V)
    (hrun : runEHT h bucket_size fuel ops = some t2) :
    (∀ key : K, EHT.findT h t2 key = scanFind key (modelOf ops)) ∧
    (∀ e ∈ t2.buckets, (e.2.list.map Prod.fst).Nodup) := by
  obtain ⟨hI, _⟩ := EInv_runEHT h bucket_size fuel ops t2 hrun
  exact ⟨fun key => hI.2.2.2.2.2.2 key, fun e he => (hI.2.2.2.2.1 e he).1⟩

def opsW5 : List (EOp Nat Nat) :=
  [EOp.insert 0 100, EOp.insert 2 200, EOp.insert 1 10, EOp.insert 3 30,
   EOp.remove 2, EOp.find 0]

def tW5 : EHT Nat Nat :=
  ⟨1, 2, 2, 3, [1, 2],
    [(1, ⟨2, 1, [(0, 100)]⟩), (2, ⟨2, 1, [(1, 10), (3, 30)]⟩),
     (0, ⟨2, 1, [(0, 100), (2, 200)]⟩)]⟩

theorem eht_find_most_recent_witness :
    runEHT (fun n => n) 2 16 opsW5 = some tW5 ∧
    (∀ key : Nat, EHT.findT (fun n => n) tW5 key = scanFind key (modelOf opsW5)) ∧
    (∀ e ∈ tW5.buckets, (e.2.list.map Prod.fst).Nodup) := by
  refine ⟨rfl, ?_, ?_⟩
  · exact (eht_find_most_recent (fun n => n) 2 16 opsW5 tW5 (by rfl)).1
  · exact (eht_find_most_recent (fun n => n) 2 16 opsW5 tW5 (by rfl)).2

/-! ### Claim C9 -/

/-- **C9**: after construction and after every completed call sequence on the
extendible hash table, the directory holds exactly `2^global_depth` slots,
every slot references a live bucket, every referenced bucket's local depth is
at most the global depth, and along any prefix of the call sequence neither
the global depth nor the number of buckets decreases. -/
theorem eht_directory_invariants [DecidableEq K] (h : K → Nat)
    (bucket_size fuel : Nat) (ops : List (EOp K V)) (t2 : EHT K V)
    (hrun : runEHT h bucket_size fuel ops = some t2) :
    t2.dir.length = 2 ^ t2.global_depth ∧
    (∀ bid ∈ t2.dir, (lookupA bid t2.buckets).isSome) ∧
    (∀ bid ∈ t2.dir, (t2.bucketOf bid).depth ≤ t2.global_depth) ∧
    (∀ ops1 ops3 t1, ops = ops1 ++ ops3 →
      runEHT h bucket_size fuel ops1 = some t1 →
      t1.global_depth ≤ t2.global_depth ∧ t1.num_buckets ≤ t2.num_buckets) := by
  obtain ⟨hI, _⟩ := EInv_runEHT h bucket_size fuel ops t2 hrun
  refine ⟨hI.1, fun bid hbid => (hI.2.1 bid hbid).2, ?_, ?_⟩
  · intro bid hbid
    obtain ⟨b, hb⟩ := Option.isSome_iff_exists.1 (hI.2.1 bid hbid).2
    have hbo : t2.bucketOf bid = b := by
      rw [EHT.bucketOf, hb, Option.getD_some]
    rw [hbo]
    exact (hI.2.2.2.2.1 _ (mem_of_lookupA hb)).2.2.2
  · intro ops1 ops3 t1 hsplit hrun1
    subst hsplit
    rw [runEHT] at hrun
    rw [runEFrom_append] at hrun
    have hrun1b : runEFrom h fuel (EHT.init K V bucket_size) ops1 = some t1 :=
      hrun1
    rw [hrun1b] at hrun
    have hrun3 : runEFrom h fuel t1 ops3 = some t2 := hrun
    obtain ⟨hI1, _⟩ := EInv_runEHT h bucket_size fuel ops1 t1 hrun1
    obtain ⟨_, hg, hn, _⟩ :=
      EInv_runEFrom h fuel t1 t2 (modelOf ops1) ops3 hI1 hrun3
    exact ⟨hg, hn⟩

def opsW9a : List (EOp Nat Nat) := [EOp.insert 0 100, EOp.insert 2 200]

def opsW9b : List (EOp Nat Nat) :=
  [EOp.insert 1 10, EOp.insert 3 30, EOp.remove 2, EOp.find 0]

def tW9 : EHT Nat Nat :=
  ⟨1, 2, 2, 3, [1, 2],
    [(1, ⟨2, 1, [(0, 100)]⟩), (2, ⟨2, 1, [(1, 10), (3, 30)]⟩),
     (0, ⟨2, 1, [(0, 100), (2, 200)]⟩)]⟩

def t1W9 : EHT Nat Nat := ⟨0, 2, 1, 1, [0], [(0, ⟨2, 0, [(0, 100), (2, 200)]⟩)]⟩

theorem eht_directory_invariants_witness :
    tW9.dir.length = 2 ^ tW9.global_depth ∧
    (∀ bid ∈ tW9.dir, (lookupA bid tW9.buckets).isSome) ∧
    t1W9.global_depth ≤ tW9.global_depth ∧
    t1W9.num_buckets ≤ tW9.num_buckets := by
  have hh := eht_directory_invariants (fun n => n) 2 16 (opsW9a ++ opsW9b) tW9 (by rfl)
  refine ⟨hh.1, hh.2.1, ?_, ?_⟩
  · exact (hh.2.2.2 opsW9a opsW9b t1W9 rfl (by rfl)).1
  · exact (hh.2.2.2 opsW9a opsW9b t1W9 rfl (by rfl)).2


/-! ## B+-tree page splits

Shallow embedding of `b_plus_tree_leaf_page.cpp` and
`b_plus_tree_internal_page.cpp`.  A leaf page stores `size` key/value pairs
in `array_[0..size)`; an internal page stores the leftmost child pointer in
`array_[0].second` (`value0` here) and `size` separator/child pairs in
`array_[1..size]` (`entries` here).  Page ids are `Int` (`INVALID_PAGE_ID`
is `-1`). -/

structure BPLeafPage (K V : Type) where
  page_id : Int
  parent_page_id : Int
  max_size : Nat
  next_page_id : Int
  entries : List (K × V)
deriving Repr, DecidableEq

/-- Translation of `BPlusTreeLeafPage::Init`. -/
def BPLeafPage.initL (K V : Type) (page_id parent_id : Int) (max_size : Nat) :
    BPLeafPage K V :=
  ⟨page_id, parent_id, max_size, -1, []⟩

/-- Translation of `BPlusTreeLeafPage::SplitInto`, acting on the old leaf and
a freshly `Init`-ed new leaf: entries `[sz/2, sz)` are copied to the new page
at offset `0`, the new size is `(sz+1)/2` and the old size `sz/2`, the next
pointers are rewired, and `new.KeyAt(0)` is returned. -/
def BPLeafPage.splitInto [Inhabited K] [Inhabited V] (l n : BPLeafPage K V) :
    BPLeafPage K V × BPLeafPage K V × K :=
  (⟨l.page_id, l.parent_page_id, l.max_size, n.page_id,
      l.entries.take (l.entries.length / 2)⟩,
   ⟨n.page_id, n.parent_page_id, n.max_size, l.next_page_id,
      (l.entries.drop (l.entries.length / 2)).take ((l.entries.length + 1) / 2)⟩,
   (((l.entries.drop (l.entries.length / 2)).take
      ((l.entries.length + 1) / 2)).getD 0 default).1)

structure BPInternalPage (K : Type) where
  page_id : Int
  parent_page_id : Int
  max_size : Nat
  value0 : Int
  entries : List (K × Int)
deriving Repr, DecidableEq

/-- Translation of `BPlusTreeInternalPage::SplitInto` with `mid = sz/2 + 1`:
the new page's leftmost child is `ValueAt(mid)`, entries `[mid+1, sz]` move
to it (`sz - mid` of them), the old size becomes `mid - 1`, and `KeyAt(mid)`
— the median separator — is returned. -/
def BPInternalPage.splitInto [Inhabited K] (l n : BPInternalPage K) :
    BPInternalPage K × BPInternalPage K × K :=
  (⟨l.page_id, l.parent_page_id, l.max_size, l.value0,
      l.entries.take (l.entries.length / 2 + 1 - 1)⟩,
   ⟨n.page_id, n.parent_page_id, n.max_size,
      (l.entries.getD (l.entries.length / 2 + 1 - 1) default).2,
      l.entries.drop (l.entries.length / 2 + 1)⟩,
   (l.entries.getD (l.entries.length / 2 + 1 - 1) default).1)

/-- `ValueAt(0) .. ValueAt(size)` of an internal page: the children the
redistribute loop of `InsertIntoInternal` iterates over. -/
def childrenOf (n : BPInternalPage K) : List Int :=
  n.value0 :: n.entries.map Prod.snd

/-- Redistribute loop of `InsertIntoInternal`: each listed child page gets its
`parent_page_id` set to the new page's id; `par` maps a page id to its
current parent id. -/
def reparentLoop (nid : Int) : List Int → (Int → Int) → (Int → Int)
  | [], par => par
  | c :: rest, par => reparentLoop nid rest (fun x => if x = c then nid else par x)

theorem reparentLoop_not_mem (nid : Int) (children : List Int) (par : Int → Int)
    (x : Int) (hx : x ∉ children) : reparentLoop nid children par x = par x := by
  induction children generalizing par with
  | nil => rfl
  | cons c rest ih =>
    simp only [List.mem_cons] at hx
    push_neg at hx
    rw [reparentLoop, ih _ hx.2]
    rw [if_neg hx.1]

theorem reparentLoop_mem (nid : Int) (children : List Int) (par : Int → Int)
    (c : Int) (hc : c ∈ children) : reparentLoop nid children par c = nid := by
  induction children generalizing par with
  | nil => simp at hc
  | cons d rest ih =>
    rw [reparentLoop]
    by_cases h2 : c ∈ rest
    · exact ih _ h2
    · rcases List.mem_cons.1 hc with h3 | h3
      · subst h3
        rw [reparentLoop_not_mem _ _ _ _ h2, if_pos rfl]
      · exact absurd h3 h2

/-- The element a list holds at a valid index is excluded from the prefix
before it and the suffix after it when the mapped keys are distinct. -/
theorem getD_key_not_in_parts {α β : Type} [Inhabited α] [Inhabited β]
    (l : List (α × β)) (i : Nat) (hi : i < l.length)
    (hnd : (l.map Prod.fst).Nodup) :
    (l.getD i default).1 ∉ (l.take i).map Prod.fst ∧
    (l.getD i default).1 ∉ (l.drop (i + 1)).map Prod.fst := by
  have hdecomp : l = l.take i ++ l[i] :: l.drop (i + 1) := by
    conv_lhs => rw [← List.take_append_drop i l]
    rw [List.drop_eq_getElem_cons hi]
  have hgd : l.getD i default = l[i] := List.getD_eq_getElem l default hi
  rw [hgd]
  rw [hdecomp, List.map_append, List.map_cons] at hnd
  rw [List.nodup_append] at hnd
  obtain ⟨h1, h2, h3⟩ := hnd
  constructor
  · intro hmem
    exact h3 hmem (List.mem_cons_self _ _)
  · intro hmem
    rw [List.nodup_cons] at h2
    exact h2.1 hmem


/-! ### Claim C7 -/

/-- **C7**: `BPlusTreeLeafPage::SplitInto` moves the upper half of the
entries (`[sz/2, sz)`) to the new right sibling, keeps the lower half in the
old leaf, sets the sibling's next pointer to the old leaf's next pointer,
sets the old leaf's next pointer to the sibling's page id, and returns the
sibling's first key, which remains stored in the sibling. -/
theorem leaf_split_spec [Inhabited K] [Inhabited V] (l n : BPLeafPage K V)
    (hsz : 1 ≤ l.entries.length) :
    ((l.splitInto n).2.1).entries = l.entries.drop (l.entries.length / 2) ∧
    ((l.splitInto n).1).entries = l.entries.take (l.entries.length / 2) ∧
    ((l.splitInto n).2.1).next_page_id = l.next_page_id ∧
    ((l.splitInto n).1).next_page_id = n.page_id ∧
    (∃ e, ((l.splitInto n).2.1).entries.head? = some e ∧
      (l.splitInto n).2.2 = e.1 ∧ e ∈ ((l.splitInto n).2.1).entries) := by
  have hk : l.entries.length / 2 < l.entries.length := by omega
  have htake : (l.entries.drop (l.entries.length / 2)).take
      ((l.entries.length + 1) / 2) = l.entries.drop (l.entries.length / 2) := by
    apply List.take_of_length_le
    rw [List.length_drop]
    omega
  have hdropc : l.entries.drop (l.entries.length / 2) =
      l.entries[l.entries.length / 2] ::
        l.entries.drop (l.entries.length / 2 + 1) :=
    List.drop_eq_getElem_cons hk
  refine ⟨htake, rfl, rfl, rfl, l.entries[l.entries.length / 2], ?_, ?_, ?_⟩
  · show ((l.entries.drop (l.entries.length / 2)).take
      ((l.entries.length + 1) / 2)).head? = _
    rw [htake, hdropc]
    rfl
  · show (((l.entries.drop (l.entries.length / 2)).take
      ((l.entries.length + 1) / 2)).getD 0 default).1 = _
    rw [htake, hdropc]
    rfl
  · show _ ∈ (l.entries.drop (l.entries.length / 2)).take
      ((l.entries.length + 1) / 2)
    rw [htake, hdropc]
    exact List.mem_cons_self _ _

def lW7 : BPLeafPage Nat Nat := ⟨3, -1, 4, 9, [(1, 10), (2, 20), (3, 30), (4, 40)]⟩

def nW7 : BPLeafPage Nat Nat := BPLeafPage.initL Nat Nat 7 (-1) 4

theorem leaf_split_spec_witness :
    1 ≤ lW7.entries.length ∧
    ((lW7.splitInto nW7).2.1).entries = [(3, 30), (4, 40)] ∧
    ((lW7.splitInto nW7).1).entries = [(1, 10), (2, 20)] ∧
    ((lW7.splitInto nW7).2.1).next_page_id = 9 ∧
    ((lW7.splitInto nW7).1).next_page_id = 7 ∧
    (lW7.splitInto nW7).2.2 = 3 := by
  have hh := leaf_split_spec lW7 nW7 (by decide)
  refine ⟨by decide, hh.1.trans rfl, hh.2.1.trans rfl, hh.2.2.1.trans rfl,
    hh.2.2.2.1.trans rfl, ?_⟩
  obtain ⟨e, he1, he2, he3⟩ := hh.2.2.2.2
  have he4 : e = ((3 : Nat), (30 : Nat)) :=
    Option.some_inj.1 (he1.symm.trans rfl)
  rw [he2, he4]

/-! ### Claim C6 -/

/-- **C6**: `BPlusTreeInternalPage::SplitInto` with `mid = sz/2 + 1` keeps
separators `[1, mid-1]` in the old page, moves `ValueAt(mid)` to the new
right sibling as its leftmost child together with the entries `[mid+1, sz]`,
and returns the median key `KeyAt(mid)`, which is stored in neither page
afterwards (the keys being distinct); the redistribute loop of
`InsertIntoInternal` sets the parent of exactly the sibling's children
(`ValueAt(0) .. ValueAt(size)`) to the sibling's page id and leaves every
other page's parent unchanged. -/
theorem internal_split_spec [Inhabited K] (l n : BPInternalPage K)
    (par : Int → Int) (hsz : 1 ≤ l.entries.length)
    (hnd : (l.entries.map Prod.fst).Nodup) :
    ((l.splitInto n).1).entries = l.entries.take (l.entries.length / 2) ∧
    ((l.splitInto n).2.1).entries = l.entries.drop (l.entries.length / 2 + 1) ∧
    ((l.splitInto n).2.1).value0 =
      (l.entries.getD (l.entries.length / 2) default).2 ∧
    (l.splitInto n).2.2 = (l.entries.getD (l.entries.length / 2) default).1 ∧
    (l.splitInto n).2.2 ∉ ((l.splitInto n).1).entries.map Prod.fst ∧
    (l.splitInto n).2.2 ∉ ((l.splitInto n).2.1).entries.map Prod.fst ∧
    ((l.splitInto n).2.1).page_id = n.page_id ∧
    (∀ c ∈ childrenOf (l.splitInto n).2.1,
      reparentLoop ((l.splitInto n).2.1).page_id
        (childrenOf (l.splitInto n).2.1) par c = ((l.splitInto n).2.1).page_id) ∧
    (∀ x, x ∉ childrenOf (l.splitInto n).2.1 →
      reparentLoop ((l.splitInto n).2.1).page_id
        (childrenOf (l.splitInto n).2.1) par x = par x) := by
  have hk : l.entries.length / 2 < l.entries.length := by omega
  obtain ⟨hnp1, hnp2⟩ := getD_key_not_in_parts l.entries (l.entries.length / 2) hk hnd
  refine ⟨rfl, rfl, rfl, rfl, hnp1, hnp2, rfl, ?_, ?_⟩
  · intro c hc
    exact reparentLoop_mem _ _ par c hc
  · intro x hx
    exact reparentLoop_not_mem _ _ par x hx

def lW6 : BPInternalPage Nat :=
  ⟨11, -1, 4, 100, [(1, 101), (2, 102), (3, 103), (4, 104)]⟩

def nW6 : BPInternalPage Nat := ⟨12, -1, 4, 0, []⟩

theorem internal_split_spec_witness :
    (1 ≤ lW6.entries.length ∧ (lW6.entries.map Prod.fst).Nodup) ∧
    ((lW6.splitInto nW6).1).entries = [(1, 101), (2, 102)] ∧
    ((lW6.splitInto nW6).2.1).entries = [(4, 104)] ∧
    ((lW6.splitInto nW6).2.1).value0 = 103 ∧
    (lW6.splitInto nW6).2.2 = 3 ∧
    reparentLoop ((lW6.splitInto nW6).2.1).page_id
      (childrenOf (lW6.splitInto nW6).2.1) (fun _ => 11) 104 = 12 ∧
    reparentLoop ((lW6.splitInto nW6).2.1).page_id
      (childrenOf (lW6.splitInto nW6).2.1) (fun _ => 11) 100 = 11 := by
  have hh := internal_split_spec lW6 nW6 (fun _ => 11) (by decide) (by decide)
  refine ⟨⟨by decide, by decide⟩, hh.1.trans rfl, hh.2.1.trans rfl,
    hh.2.2.1.trans rfl, hh.2.2.2.1.trans rfl, ?_, ?_⟩
  · exact (hh.2.2.2.2.2.2.2.1 104 (by decide)).trans rfl
  · exact (hh.2.2.2.2.2.2.2.2 100 (by decide)).trans rfl


/-! ## Buffer pool manager

Shallow embedding of `BufferPoolManagerInstance::UnpinPgImp`
(`buffer_pool_manager_instance.cpp`, lines 161-177).  `page_table_` is the
extendible hash table used as a page-id → frame-id map (represented here by
the association its `Find` realizes, cf. `eht_find_most_recent`); `pages_`
is the frame-indexed page array; `replacer_` is the LRU-K replacer. -/

structure BPPage where
  page_id : Int
  pin_count : Nat
  is_dirty : Bool
deriving Repr, DecidableEq

structure BPMI where
  pool_size : Nat
  page_table : List (Nat × Nat)
  pages : List (Nat × BPPage)
  replacer : LRUKReplacer
deriving Repr, DecidableEq

/-- Translation of `UnpinPgImp`, statement by statement: fail when the page
is not resident or its pin count is `0`; decrement the pin count; when it
reaches `0`, call `replacer_->Evict(&frame_id)` — which evicts the
replacer's victim frame, if any, and overwrites the local `frame_id`
variable with it — then set `pages_[frame_id].is_dirty_ = true`
unconditionally (the `is_dirty` argument is never read) and return true.
`pages_[f]` is array indexing, total in the source; frames present in the
page table are in range, so the `getD` default is never used there. -/
def BPMI.unpinPgImp (bpm : BPMI) (page_id : Nat) (is_dirty : Bool) :
    Bool × BPMI :=
  match lookupA page_id bpm.page_table with
  | none => (false, bpm)
  | some frame_id =>
    let pg := (lookupA frame_id bpm.pages).getD ⟨-1, 0, false⟩
    if pg.pin_count = 0 then (false, bpm)
    else
      let pg2 : BPPage := ⟨pg.page_id, pg.pin_count - 1, pg.is_dirty⟩
      let pages2 := setA frame_id pg2 bpm.pages
      let er := if pg2.pin_count = 0 then bpm.replacer.evict
                else (none, bpm.replacer)
      let fid2 := match er.1 with
                  | some f => f
                  | none => frame_id
      let pg3 := (lookupA fid2 pages2).getD ⟨-1, 0, false⟩
      (true,
        { bpm with
          pages := setA fid2 ⟨pg3.page_id, pg3.pin_count, true⟩ pages2
          replacer := er.2 })

/-- A pool with page `5` resident in frame `0`, pinned once, clean; the
replacer tracks frame `0` as non-evictable (as `FetchPgImp` / `NewPgImp`
leave it for a pinned page). -/
def bpmW : BPMI :=
  ⟨2, [(5, 0)], [(0, ⟨5, 1, false⟩)], ⟨2, 2, [(0, ⟨[1], false⟩)], 0, 2⟩⟩

/-- **C1** (refuted): unpinning the clean, once-pinned resident page `5` with
`is_dirty = false` returns true and drops the pin count to `0` as the claim
states, but then diverges from it: the code calls `replacer_->Evict(&frame_id)`
instead of `SetEvictable(frame_id, true)`, so the page's frame is not marked
evictable (here the replacer state is unchanged and frame `0` stays
non-evictable), and it sets `is_dirty_ = true` unconditionally, so the clean
page unpinned with `is_dirty = false` ends dirty instead of keeping the
claimed sticky-or value `false`. -/
theorem bpm_unpin_divergence :
    (bpmW.unpinPgImp 5 false).1 = true ∧
    lookupA 0 (bpmW.unpinPgImp 5 false).2.pages = some ⟨5, 0, true⟩ ∧
    ¬ ((lookupA 0 (bpmW.unpinPgImp 5 false).2.pages).map BPPage.is_dirty =
        some false) ∧
    (bpmW.unpinPgImp 5 false).2.replacer = bpmW.replacer ∧
    ¬ ((lookupA 0 (bpmW.unpinPgImp 5 false).2.replacer.cache).map
        FrameInfo.is_evictable = some true) := by
  decide


/-! ## Deadlock detector

Shallow embedding of `LockManager::HasCycleUtil` / `HasCycle`
(`lock_manager.cpp`).  The waits-for graph `waits_for_` is a `std::map`
from txn id to its adjacency list, iterated in ascending key order; the
DFS bookkeeping maps `visit_` and `recurv_stack_` are represented by the
lists of txn ids currently mapped to `true`.  `fuel` bounds the recursion
depth, which the source does not (it cannot exceed the vertex count). -/

structure DFSState where
  visit : List Nat
  recurv_stack : List Nat
deriving Repr, DecidableEq

/-- The `for (auto &holds : waits_for_[txn_id])` loop of `HasCycleUtil`,
parameterized by the recursive call `hcu` (one fuel step smaller): recurse
into unvisited neighbours, and report a cycle when a neighbour is on the
recursion stack. -/
def hcuLoop (hcu : Nat → DFSState → Bool × DFSState) :
    List Nat → DFSState → Bool × DFSState
  | [], st => (false, st)
  | holds :: rest, st =>
    if holds ∉ st.visit then
      match hcu holds st with
      | (true, st2) => (true, st2)
      | (false, st2) =>
        if holds ∈ st2.recurv_stack then (true, st2)
        else hcuLoop hcu rest st2
    else
      if holds ∈ st.recurv_stack then (true, st)
      else hcuLoop hcu rest st

/-- Translation of `HasCycleUtil`: an unvisited node is marked visited and
pushed on the recursion stack, its adjacency list is walked, and on falling
through the node is popped off the stack; a visited node returns `true`
(this branch is unreachable from the guarded call sites).  `fuel` bounds the
recursion depth, which the source does not (it cannot exceed the vertex
count). -/
def hasCycleUtil (g : List (Nat × List Nat)) :
    Nat → Nat → DFSState → Bool × DFSState
  | 0, _, st => (false, st)
  | fuel + 1, txn, st =>
    if txn ∈ st.visit then (true, st)
    else
      match hcuLoop (fun t s => hasCycleUtil g fuel t s)
          ((lookupA txn g).getD [])
          ⟨txn :: st.visit, txn :: st.recurv_stack⟩ with
      | (true, st2) => (true, st2)
      | (false, st2) => (false, ⟨st2.visit, st2.recurv_stack.erase txn⟩)

/-- The victim choice of `HasCycle`: all txn ids mapped to `true` in
`recurv_stack_` are put into a `std::set<txn_id_t, std::greater<>>` and
`*tp_set.begin()` — their maximum — is written to `*txn_id`. -/
def victimOf (st : DFSState) : Nat := st.recurv_stack.foldl Nat.max 0

/-- Outer vertex loop of `HasCycle` over the ascending key set of
`waits_for_`. -/
def hcOuter (g : List (Nat × List Nat)) (fuel : Nat) :
    List Nat → DFSState → Option Nat
  | [], _ => none
  | v :: rest, st =>
    if v ∈ st.visit then hcOuter g fuel rest st
    else
      match hasCycleUtil g fuel v st with
      | (true, st2) => some (victimOf st2)
      | (false, st2) => hcOuter g fuel rest st2

/-- Translation of `HasCycle`: `some victim` when a cycle is found (the
value the `RunCycleDetection` loop aborts), `none` otherwise. -/
def hasCycle (g : List (Nat × List Nat)) (fuel : Nat) : Option Nat :=
  hcOuter g fuel (g.map Prod.fst) ⟨[], []⟩

/-- `chainB g l first`: consecutive elements of `l` are joined by waits-for
edges and the last one has an edge back to `first`. -/
def chainB (g : List (Nat × List Nat)) : List Nat → Nat → Bool
  | [], _ => false
  | [v], first => first ∈ (lookupA v g).getD []
  | v :: w :: rest, first =>
    (w ∈ (lookupA v g).getD [] : Bool) && chainB g (w :: rest) first

/-- A nonempty vertex list forming a directed cycle in the waits-for
graph. -/
def isCycle (g : List (Nat × List Nat)) : List Nat → Bool
  | [] => false
  | v :: rest => chainB g (v :: rest) v

theorem chainB_pred (g : List (Nat × List Nat)) (l : List Nat) (first x : Nat)
    (hc : chainB g l first = true) (hx : x ∈ l.tail ++ [first]) :
    ∃ u ∈ l, x ∈ (lookupA u g).getD [] := by
  induction l with
  | nil => simp [chainB] at hc
  | cons v rest ih =>
    cases rest with
    | nil =>
      simp only [List.tail_cons, List.nil_append, List.mem_singleton] at hx
      subst hx
      refine ⟨v, List.mem_cons_self _ _, ?_⟩
      simpa [chainB] using hc
    | cons w rest2 =>
      rw [chainB, Bool.and_eq_true] at hc
      simp only [List.tail_cons] at hx
      rcases List.mem_append.1 hx with h2 | h2
      · rcases List.mem_cons.1 h2 with h3 | h3
        · subst h3
          refine ⟨v, List.mem_cons_self _ _, ?_⟩
          simpa using hc.1
        · obtain ⟨u, hu, he⟩ := ih hc.2 (by
            simp only [List.tail_cons]
            exact List.mem_append_left _ h3)
          exact ⟨u, List.mem_cons_of_mem _ hu, he⟩
      · obtain ⟨u, hu, he⟩ := ih hc.2 (by
          simp only [List.tail_cons]
          exact List.mem_append_right _ h2)
        exact ⟨u, List.mem_cons_of_mem _ hu, he⟩

/-- Every vertex of a cycle has a predecessor inside the cycle. -/
theorem isCycle_mem_pred (g : List (Nat × List Nat)) (l : List Nat)
    (hl : isCycle g l = true) (v : Nat) (hv : v ∈ l) :
    ∃ u ∈ l, v ∈ (lookupA u g).getD [] := by
  cases l with
  | nil => simp [isCycle] at hl
  | cons w rest =>
    rw [isCycle] at hl
    rcases List.mem_cons.1 hv with h2 | h2
    · subst h2
      exact chainB_pred g (v :: rest) v v hl
        (List.mem_append_right _ (List.mem_singleton.2 rfl))
    · exact chainB_pred g (w :: rest) w v hl
        (List.mem_append_left _ (by simpa using h2))

/-- The waits-for graph of scenario: txn 1 waits for 5, txns 2 and 3 wait
for each other, txn 5 waits for 2.  Its only cycle is `2 ↔ 3`. -/
def gW4 : List (Nat × List Nat) := [(1, [5]), (2, [3]), (3, [2]), (5, [2])]

/-- **C4** (refuted): on the waits-for graph `gW4` the detector reports a
cycle and `RunCycleDetection` aborts txn `5` (`HasCycle` writes the maximum
of the whole DFS recursion stack, not of the cycle), yet txn `5` lies on no
cycle of the graph at all — the unique cycle is `2 ↔ 3` — so the victim is
neither in the cycle nor its highest txn id. -/
theorem deadlock_victim_not_in_cycle :
    hasCycle gW4 16 = some 5 ∧
    isCycle gW4 [2, 3] = true ∧
    ∀ l, isCycle gW4 l = true → 5 ∉ l := by
  have hpred5 : ∀ u : Nat, 5 ∈ (lookupA u gW4).getD ([] : List Nat) → u = 1 := by
    intro u hu
    simp only [gW4, lookupA] at hu
    by_cases h1 : (1 : Nat) = u
    · exact h1.symm
    · rw [if_neg h1] at hu
      by_cases h2 : (2 : Nat) = u
      · rw [if_pos h2] at hu
        simp at hu
      · rw [if_neg h2] at hu
        by_cases h3 : (3 : Nat) = u
        · rw [if_pos h3] at hu
          simp at hu
        · rw [if_neg h3] at hu
          by_cases h5 : (5 : Nat) = u
          · rw [if_pos h5] at hu
            simp at hu
          · rw [if_neg h5] at hu
            simp at hu
  have hpred1 : ∀ u : Nat, 1 ∈ (lookupA u gW4).getD ([] : List Nat) → False := by
    intro u hu
    simp only [gW4, lookupA] at hu
    by_cases h1 : (1 : Nat) = u
    · rw [if_pos h1] at hu
      simp at hu
    · rw [if_neg h1] at hu
      by_cases h2 : (2 : Nat) = u
      · rw [if_pos h2] at hu
        simp at hu
      · rw [if_neg h2] at hu
        by_cases h3 : (3 : Nat) = u
        · rw [if_pos h3] at hu
          simp at hu
        · rw [if_neg h3] at hu
          by_cases h5 : (5 : Nat) = u
          · rw [if_pos h5] at hu
            simp at hu
          · rw [if_neg h5] at hu
            simp at hu
  refine ⟨by decide, by decide, ?_⟩
  intro l hl h5
  obtain ⟨u, hu, hedge⟩ := isCycle_mem_pred gW4 l hl 5 h5
  have hu1 : u = 1 := hpred5 u hedge
  subst hu1
  obtain ⟨u2, _, hedge2⟩ := isCycle_mem_pred gW4 l hl 1 hu
  exact hpred1 u2 hedge2

end BusTub
